import Mathlib

/-!
Shallow embedding of `src/include/libtorrent/aux_/disk_cache.hpp`.

The cache batches downloaded 16 KiB blocks in memory, drives incremental
hashing (v1 streaming SHA-1 per piece, v2 one-shot SHA-256 per block) and
flushes dirty blocks to disk through a writer callback.  Hashing primitives
are external collaborators, so they are modelled transparently: a streaming
SHA-1 context is the list of buffers folded into it so far, and SHA-256 of a
buffer is the buffer wrapped in a marker structure (an injective ideal hash).
Buffers are lists of bytes; a null pointer is `none`.  Machine `int` counters
that the source decrements (`m_blocks`, `m_flushing_blocks`) are `Int`.

Concurrency note: every public operation of the source acquires the single
mutex on entry, releases it only around the writer / hasher callbacks, and
restores the pin flags (`hashing`, `flushing`) plus `m_flushing_blocks`
before returning.  At quiescent points (no operation holding the mutex) each
operation is therefore an atomic state transformation, which is what the
functions below compute; the transient pin-flag flips and
`m_flushing_blocks` adjustments cancel out within each call and are omitted.
-/

namespace DiskCacheModel

/-- A block buffer: the bytes, `none` standing for a null pointer. -/
abbrev Buf := List Nat

/-- Model of a finalised SHA-256 block hash (`hasher256(buf).final()`):
the input buffer tagged, an injective ideal hash. -/
structure Sha256Hash where
  data : Buf
deriving DecidableEq, Repr

/-- `hasher256(buf).final()` of the source. -/
def hasher256_final (b : Buf) : Sha256Hash := ⟨b⟩

/-- Model of the streaming SHA-1 `hasher`: the context is the list of
buffers folded in by `update` so far. -/
structure Hasher where
  ctx : List Buf := []
deriving DecidableEq, Repr

/-- `hasher::update`. -/
def Hasher.update (h : Hasher) (b : Buf) : Hasher := ⟨h.ctx ++ [b]⟩

/-- Model of a finalised SHA-1 piece hash. -/
structure Sha1Hash where
  data : List Buf
deriving DecidableEq, Repr

/-- `hasher::final`: finalising the streaming context. -/
def Hasher.final (h : Hasher) : Sha1Hash := ⟨h.ctx⟩

/-- A pending write `pread_disk_job`: an identity plus the owned buffer it
carries (`std::get<job::write>(j->action).buf`). -/
structure WriteJob where
  id : Nat
  buf : Buf
deriving DecidableEq, Repr

/-- A hash `pread_disk_job`: output field `piece_hash` and output slice
`block_hashes` (its length is the slice length). -/
structure HashJob where
  id : Nat
  piece_hash : Sha1Hash := ⟨[]⟩
  block_hashes : List Sha256Hash := []
deriving DecidableEq, Repr

/-- `cached_block_entry` of the source. -/
structure CachedBlockEntry where
  buf_holder : Option Buf := none
  write_job : Option WriteJob := none
  flushed_to_disk : Bool := false
  block_hash : Sha256Hash := ⟨[]⟩
deriving DecidableEq, Repr

instance : Inhabited CachedBlockEntry := ⟨{}⟩

/-- `cached_block_entry::buf()`: the holder if present, else the write
job's buffer, else null. -/
def CachedBlockEntry.buf (b : CachedBlockEntry) : Option Buf :=
  match b.buf_holder with
  | some h => some h
  | none =>
    match b.write_job with
    | some j => some j.buf
    | none => none

/-- `piece_location`: (torrent, piece index). -/
structure PieceLocation where
  torrent : Nat
  piece : Nat
deriving DecidableEq, Repr

/-- `cached_piece_entry` of the source.  `blocks_in_piece` is the length of
`blocks`. -/
structure CachedPieceEntry where
  piece : PieceLocation
  ready_to_flush : Bool := false
  hashing : Bool := false
  flushing : Bool := false
  piece_hash_returned : Bool := false
  v1_hashes : Bool := false
  v2_hashes : Bool := false
  blocks : List CachedBlockEntry
  hasher_cursor : Nat := 0
  flushed_cursor : Nat := 0
  ph : Hasher := {}
  hash_job : Option HashJob := none
  clear_piece : Option Nat := none
deriving DecidableEq, Repr

/-- `blocks_in_piece` field of the source. -/
def CachedPieceEntry.blocks_in_piece (p : CachedPieceEntry) : Nat := p.blocks.length

/-- `cached_piece_entry::cheap_to_flush()`. -/
def CachedPieceEntry.cheap_to_flush (p : CachedPieceEntry) : Int :=
  (p.hasher_cursor : Int) - (p.flushed_cursor : Int)

/-- Free function `have_buffers`. -/
def have_buffers (blocks : List CachedBlockEntry) : Bool :=
  blocks.all (fun b => b.buf.isSome)

/-- Free function `compute_ready_to_flush`. -/
def compute_ready_to_flush (blocks : List CachedBlockEntry) : Bool :=
  blocks.all (fun b => b.write_job.isSome || b.flushed_to_disk)

/-- Free function `compute_flushed_cursor`. -/
def compute_flushed_cursor (blocks : List CachedBlockEntry) : Nat :=
  (blocks.takeWhile (fun b => b.flushed_to_disk)).length

/-- Free function `count_jobs`. -/
def count_jobs (blocks : List CachedBlockEntry) : Nat :=
  blocks.countP (fun b => b.write_job.isSome)

/-- The `pread_storage` interface used by `insert`: `files().piece_size`,
`v1()`, `v2()`. -/
structure PreadStorage where
  piece_size : Nat → Nat
  v1 : Bool
  v2 : Bool

/-- `default_block_size` (16 KiB). -/
def default_block_size : Nat := 16384

/-- The cache state: the multi-index container (as the underlying set of
entries, keys unique in valid states) plus the two counters. -/
structure DiskCache where
  m_pieces : List CachedPieceEntry := []
  m_blocks : Int := 0
  m_flushing_blocks : Int := 0
deriving DecidableEq, Repr

/-- Key lookup (`view.find(loc)`). -/
def findPiece (ps : List CachedPieceEntry) (loc : PieceLocation) : Option CachedPieceEntry :=
  ps.find? (fun p => p.piece == loc)

/-- `view.modify(i, ...)` on the element found at `loc`: replace the first
entry with that key. -/
def replacePiece : List CachedPieceEntry → PieceLocation → CachedPieceEntry →
    List CachedPieceEntry
  | [], _, _ => []
  | q :: rest, loc, p' =>
    if q.piece == loc then p' :: rest else q :: replacePiece rest loc p'

/-- `view.erase(i)` on the element found at `loc`: drop the first entry
with that key. -/
def erasePiece : List CachedPieceEntry → PieceLocation → List CachedPieceEntry
  | [], _ => []
  | q :: rest, loc => if q.piece == loc then rest else q :: erasePiece rest loc

/-- The piece `insert` works on: the existing entry for `loc`, or the fresh
entry built at lines 401-411 of the source (`blocks_in_piece` computed from
the storage's piece size, `v1_hashes` / `v2_hashes` from the storage), and
the container after the potential creation. -/
def insertBase (c : DiskCache) (env : Nat → PreadStorage) (loc : PieceLocation) :
    CachedPieceEntry × List CachedPieceEntry :=
  match findPiece c.m_pieces loc with
  | some p => (p, c.m_pieces)
  | none =>
    let storage := env loc.torrent
    let blocks_in_piece :=
      (storage.piece_size loc.piece + default_block_size - 1) / default_block_size
    let pe : CachedPieceEntry :=
      { piece := loc
        blocks := List.replicate blocks_in_piece {}
        v1_hashes := storage.v1
        v2_hashes := storage.v2 }
    (pe, c.m_pieces ++ [pe])

/-- `disk_cache::insert` (lines 391-433): store the write job in the slot,
bump `m_blocks`, recompute `ready_to_flush`, return "kick hasher?". -/
def DiskCache.insert (c : DiskCache) (env : Nat → PreadStorage) (loc : PieceLocation)
    (block_idx : Nat) (wj : WriteJob) : Bool × DiskCache :=
  let pb := insertBase c env loc
  let blocks' := pb.1.blocks.set block_idx
    { pb.1.blocks.getD block_idx {} with write_job := some wj }
  let rtf := compute_ready_to_flush blocks'
  let p' := { pb.1 with blocks := blocks', ready_to_flush := rtf }
  (block_idx == 0 || rtf,
    { c with m_pieces := replacePiece pb.2 loc p', m_blocks := c.m_blocks + 1 })

/-- `disk_cache::clear_piece_impl` (lines 1073-1094): move every live write
job to `aborted` (resetting that block's `flushed_to_disk`), reset every
`buf_holder`, reset the flags, both cursors and the SHA-1 context.  The
`m_blocks` decrement (one per aborted job) is applied by the caller. -/
def clear_piece_impl (cpe : CachedPieceEntry) : CachedPieceEntry × List WriteJob :=
  let aborted := cpe.blocks.filterMap (fun b => b.write_job)
  let blocks' := cpe.blocks.map (fun b =>
    { b with
      write_job := none
      flushed_to_disk := if b.write_job.isSome then false else b.flushed_to_disk
      buf_holder := none })
  ({ cpe with
      blocks := blocks'
      ready_to_flush := false
      piece_hash_returned := false
      hasher_cursor := 0
      flushed_cursor := 0
      ph := {} }, aborted)

/-- `disk_cache::try_clear_piece` (lines 338-368).  Returns (posted
complete?, new cache, aborted write jobs). -/
def DiskCache.try_clear_piece (c : DiskCache) (loc : PieceLocation) (j : Nat) :
    Bool × DiskCache × List WriteJob :=
  match findPiece c.m_pieces loc with
  | none => (true, c, [])
  | some p =>
    if p.flushing then
      (false,
        { c with m_pieces := replacePiece c.m_pieces loc { p with clear_piece := some j } },
        [])
    else if p.hashing then
      (false,
        { c with m_pieces := replacePiece c.m_pieces loc { p with clear_piece := some j } },
        [])
    else
      let pr := clear_piece_impl p
      (true,
        { c with
            m_pieces := replacePiece c.m_pieces loc pr.1
            m_blocks := c.m_blocks - pr.2.length },
        pr.2)

/-- `disk_cache::get2` (lines 370-388).  The source reads
`blocks[block_idx]` and `blocks[block_idx + 1]` with no bounds check; in
this total embedding an out-of-range access yields `none` instead of the
source's undefined behaviour, and every in-bounds outcome is `some`. -/
def DiskCache.get2 (c : DiskCache) (loc : PieceLocation) (block_idx : Nat)
    (f : Option Buf → Option Buf → Int) : Option Int :=
  match findPiece c.m_pieces loc with
  | none => some 0
  | some p =>
    match p.blocks[block_idx]?, p.blocks[block_idx + 1]? with
    | some b1, some b2 =>
      if b1.buf.isNone && b2.buf.isNone then some 0 else some (f b1.buf b2.buf)
    | _, _ => none

/-- The `hash_result` enum of the source. -/
inductive hash_result where
  | job_completed
  | job_queued
  | post_job
deriving DecidableEq, Repr

/-- `disk_cache::try_hash_piece` (lines 450-490).  Returns the tri-state
result, the new cache and the (possibly written-to) hash job. -/
def DiskCache.try_hash_piece (c : DiskCache) (loc : PieceLocation) (hj : HashJob) :
    hash_result × DiskCache × HashJob :=
  match findPiece c.m_pieces loc with
  | none => (.post_job, c, hj)
  | some p =>
    if !p.hashing && p.hasher_cursor == p.blocks.length then
      let p' := { p with piece_hash_returned := true }
      let hj' := { hj with piece_hash := p.ph.final }
      (.job_completed, { c with m_pieces := replacePiece c.m_pieces loc p' }, hj')
    else if p.hashing && decide (p.hasher_cursor < p.blocks.length)
        && have_buffers (p.blocks.drop p.hasher_cursor) then
      (.job_queued,
        { c with m_pieces := replacePiece c.m_pieces loc { p with hash_job := some hj } },
        hj)
    else
      (.post_job, c, hj)

/-- `disk_cache::hash2` (lines 262-296), a pure query: cached block hash if
`hasher_cursor > block_idx`, else hash of the resident buffer, else the
fallback's value (also taken while the piece is hashing or absent).  The
source indexes `blocks[block_idx]` unchecked; out of range yields the
fallback of a default entry here. -/
def DiskCache.hash2 (c : DiskCache) (loc : PieceLocation) (block_idx : Nat)
    (fallback : Sha256Hash) : Sha256Hash :=
  match findPiece c.m_pieces loc with
  | none => fallback
  | some p =>
    if p.hashing then fallback
    else
      let cbe := p.blocks.getD block_idx {}
      if block_idx < p.hasher_cursor then cbe.block_hash
      else
        match cbe.buf with
        | some b => hasher256_final b
        | none => fallback

/-- State threaded through `kick_hasher`'s `keep_going` loop: the piece's
blocks, its SHA-1 context and the cursor. -/
structure KickState where
  blocks : List CachedBlockEntry
  ctx : Hasher
  cursor : Nat
deriving DecidableEq, Repr

/-- The per-run block update of `kick_hasher` (lines 530-550): for each
block of the hashed run, store its SHA-256 when v2 is needed and release
any `buf_holder`. -/
def hashRunBlocks (need_v2 : Bool) : List CachedBlockEntry → List CachedBlockEntry
  | [] => []
  | b :: rest =>
    { b with
      block_hash := if need_v2 then hasher256_final (b.buf.getD []) else b.block_hash
      buf_holder := none } :: hashRunBlocks need_v2 rest

/-- One `keep_going` pass of `kick_hasher` (lines 510-555): take the
maximal run of resident blocks from the cursor, fold them into the SHA-1
context when v1 is needed, update the run's blocks, advance the cursor. -/
def kickPass (need_v1 need_v2 : Bool) (st : KickState) : KickState :=
  let run := (st.blocks.drop st.cursor).takeWhile (fun b => b.buf.isSome)
  let i := run.length
  let ctx' := if need_v1 then run.foldl (fun h b => h.update (b.buf.getD [])) st.ctx else st.ctx
  { blocks := st.blocks.take st.cursor ++ hashRunBlocks need_v2 run
      ++ st.blocks.drop (st.cursor + i)
    ctx := ctx'
    cursor := st.cursor + i }

/-- The `keep_going` loop (lines 510-562): repeat a pass while the cursor
has not reached the end and the block at the cursor is resident.  The fuel
bounds the iteration count; `blocks.length + 1` always suffices since a
repeated pass consumes at least one block. -/
def kickLoop (need_v1 need_v2 : Bool) : Nat → KickState → KickState
  | 0, st => st
  | fuel + 1, st =>
    let st' := kickPass need_v1 need_v2 st
    if st'.cursor < st'.blocks.length ∧ ((st'.blocks.getD st'.cursor default).buf).isSome
    then kickLoop need_v1 need_v2 fuel st'
    else st'

/-- `disk_cache::kick_hasher` (lines 493-589).  Returns the new cache and
the jobs pushed onto `completed_jobs`. -/
def DiskCache.kick_hasher (c : DiskCache) (loc : PieceLocation) :
    DiskCache × List HashJob :=
  match findPiece c.m_pieces loc with
  | none => (c, [])
  | some p =>
    if p.hashing then (c, [])
    else
      let st := kickLoop p.v1_hashes p.v2_hashes (p.blocks.length + 1)
        { blocks := p.blocks, ctx := p.ph, cursor := p.hasher_cursor }
      let p1 := { p with blocks := st.blocks, ph := st.ctx, hasher_cursor := st.cursor }
      match p1.hash_job with
      | none => ({ c with m_pieces := replacePiece c.m_pieces loc p1 }, [])
      | some hj =>
        let p2 := { p1 with
          hash_job := none
          ready_to_flush := compute_ready_to_flush p1.blocks }
        let to_copy := min p1.blocks.length hj.block_hashes.length
        let hj' := { hj with
          piece_hash := st.ctx.final
          block_hashes := (p1.blocks.map (fun b => b.block_hash)).take to_copy
            ++ hj.block_hashes.drop to_copy }
        ({ c with m_pieces := replacePiece c.m_pieces loc p2 }, [hj'])

/-- The writer callback of `flush_to_disk` / `flush_storage`: given the
span of blocks and the (span-relative) hash cursor argument, it returns the
out-bitmap of blocks it persisted and its count (a C++ `int`). -/
abbrev Writer := List CachedBlockEntry → Int → List Bool × Int

/-- `bitfield::get_bit` on the out-bitmap (bits beyond the list are the
cleared bits of the resized bitfield). -/
def getBit (bm : List Bool) (i : Nat) : Bool := bm.getD i false

/-- The number of bits set in the first `n` positions of the out-bitmap. -/
def bitCount (bm : List Bool) (n : Nat) : Nat :=
  (List.range n).countP (fun i => getBit bm i)

/-- The post-writer block update common to all flush loops (e.g. lines
662-678): for each bit set in the out-bitmap, move the write job's buffer
into `buf_holder` (released at once when the span index is below the hash
cursor), mark the block flushed and null the job.  `i` is the span index of
the head.  The source asserts that every set bit has a live write job; the
`none` branch is unreachable under that precondition. -/
def applyWriterUpdate (hash_cursor : Nat) (bm : List Bool) :
    Nat → List CachedBlockEntry → List CachedBlockEntry
  | _, [] => []
  | i, b :: rest =>
    (if getBit bm i then
      match b.write_job with
      | some j =>
        { b with
          buf_holder := if i < hash_cursor then none else some j.buf
          flushed_to_disk := true
          write_job := none }
      | none => b
    else b) :: applyWriterUpdate hash_cursor bm (i + 1) rest

/-- Which flush loop produced an event. -/
inductive FlushPhase where
  | phaseA
  | phaseB
  | phaseC
  | storagePhase
deriving DecidableEq, Repr

/-- One invocation of the writer callback: the loop it came from, the
piece, the span and cursor argument handed to the writer, and the bitmap
and count the writer returned.  `requested` is the loop's `num_blocks`
against which the count is compared. -/
structure FlushEvent where
  phase : FlushPhase
  loc : PieceLocation
  span : List CachedBlockEntry
  hash_arg : Int
  bm : List Bool
  count : Int
  requested : Int
deriving DecidableEq, Repr

/-- One invocation of `clear_piece_fun`: the aborted write jobs and the
parked clear job handed to it. -/
structure ClearEvent where
  aborted : List WriteJob
  job : Nat
deriving DecidableEq, Repr

/-- Result of one flush-loop body: the updated piece, the updated
`m_blocks`, the writer invocation and the `clear_piece_fun` invocations. -/
structure PassResult where
  piece : CachedPieceEntry
  mblocks : Int
  ev : FlushEvent
  cevs : List ClearEvent
deriving DecidableEq, Repr

/-- Result of one flush loop: the cache, the writer and clear invocations,
and whether the loop returned from the whole call. -/
structure LoopResult where
  cache : DiskCache
  evs : List FlushEvent
  cevs : List ClearEvent
  stop : Bool
deriving DecidableEq, Repr

/-- Result of `flush_to_disk` / `flush_storage`: the cache, the writer
invocations and the `clear_piece_fun` invocations. -/
structure FlushResult where
  cache : DiskCache
  evs : List FlushEvent
  cevs : List ClearEvent
deriving DecidableEq, Repr

/-- The parked-clear handling at the end of every flush loop body (e.g.
lines 686-695): if a clear job is parked, run `clear_piece_impl`, detach
the job and invoke `clear_piece_fun` with the aborted queue and the job.
Returns the piece, the updated `m_blocks` and the clear invocations. -/
def runParkedClear (p : CachedPieceEntry) (mblocks : Int) :
    CachedPieceEntry × Int × List ClearEvent :=
  match p.clear_piece with
  | none => (p, mblocks, [])
  | some j =>
    let pr := clear_piece_impl p
    ({ pr.1 with clear_piece := none }, mblocks - pr.2.length, [⟨pr.2, j⟩])

/-- The body of one Phase A iteration of `flush_to_disk` (lines 629-695):
the writer sees the whole block span with the absolute hash cursor, then
both `flushed_cursor` and `ready_to_flush` are recomputed, `m_blocks`
drops by the writer's count and a parked clear runs.  `requested` is
`blocks_in_piece`. -/
def phaseAPass (w : Writer) (p : CachedPieceEntry) (mblocks : Int) : PassResult :=
  let hash_cursor := p.hasher_cursor
  let wres := w p.blocks (hash_cursor : Int)
  let blocks' := applyWriterUpdate hash_cursor wres.1 0 p.blocks
  let p1 := { p with
    blocks := blocks'
    flushed_cursor := compute_flushed_cursor blocks'
    ready_to_flush := compute_ready_to_flush blocks' }
  let co := runParkedClear p1 (mblocks - wres.2)
  ⟨co.1, co.2.1,
    ⟨.phaseA, p.piece, p.blocks, (hash_cursor : Int), wres.1, wres.2,
      (p.blocks.length : Int)⟩, co.2.2⟩

/-- The body of one Phase B iteration of `flush_to_disk` (lines 735-801):
the writer sees the suffix `blocks[flushed_cursor..]` with
`hasher_cursor - flushed_cursor` as its cursor argument; the eager
`buf_holder` release compares the span-relative index against the absolute
`hasher_cursor`; only `flushed_cursor` is rewritten afterwards, and from
`compute_flushed_cursor` of the suffix alone.  `requested` is
`hasher_cursor - flushed_cursor`. -/
def phaseBPass (w : Writer) (p : CachedPieceEntry) (mblocks : Int) : PassResult :=
  let num_blocks : Int := (p.hasher_cursor : Int) - (p.flushed_cursor : Int)
  let span := p.blocks.drop p.flushed_cursor
  let hash_cursor := p.hasher_cursor
  let wres := w span num_blocks
  let span' := applyWriterUpdate hash_cursor wres.1 0 span
  let p1 := { p with
    blocks := p.blocks.take p.flushed_cursor ++ span'
    flushed_cursor := compute_flushed_cursor span' }
  let co := runParkedClear p1 (mblocks - wres.2)
  ⟨co.1, co.2.1, ⟨.phaseB, p.piece, span, num_blocks, wres.1, wres.2, num_blocks⟩, co.2.2⟩

/-- The body of one Phase C iteration of `flush_to_disk` (lines 825-887)
and of the `flush_storage` loop (lines 930-994): the writer sees the whole
span with the absolute hash cursor; only `flushed_cursor` is recomputed
(over the whole span); `requested` is `count_jobs`. -/
def phaseCPass (w : Writer) (phase : FlushPhase) (p : CachedPieceEntry) (mblocks : Int) :
    PassResult :=
  let num_blocks : Int := (count_jobs p.blocks : Int)
  let hash_cursor := p.hasher_cursor
  let wres := w p.blocks (hash_cursor : Int)
  let blocks' := applyWriterUpdate hash_cursor wres.1 0 p.blocks
  let p1 := { p with
    blocks := blocks'
    flushed_cursor := compute_flushed_cursor blocks' }
  let co := runParkedClear p1 (mblocks - wres.2)
  ⟨co.1, co.2.1,
    ⟨phase, p.piece, p.blocks, (hash_cursor : Int), wres.1, wres.2, num_blocks⟩, co.2.2⟩

/-- Phase A loop of `flush_to_disk` (lines 608-707) over the snapshot of
entries ordered ready-first (the loop breaks at the first entry that is not
`ready_to_flush`, so exactly the ready entries are visited): skip `flushing`
pieces, flush each visited piece, erase it when `piece_hash_returned` holds
after the pass, and return from the whole call (final `true`) when the
writer's count falls short of `blocks_in_piece`. -/
def phaseALoop (w : Writer) :
    List CachedPieceEntry → DiskCache → LoopResult
  | [], c => ⟨c, [], [], false⟩
  | p :: rest, c =>
    if p.flushing then phaseALoop w rest c
    else
      let r := phaseAPass w p c.m_blocks
      let pieces' :=
        if r.piece.piece_hash_returned then erasePiece c.m_pieces p.piece
        else replacePiece c.m_pieces p.piece r.piece
      let c' : DiskCache := { c with m_pieces := pieces', m_blocks := r.mblocks }
      if r.ev.count < r.ev.requested then ⟨c', [r.ev], r.cevs, true⟩
      else
        let l := phaseALoop w rest c'
        ⟨l.cache, r.ev :: l.evs, r.cevs ++ l.cevs, l.stop⟩

/-- Insertion step of the snapshot sort. -/
def sortedInsertBy (le : CachedPieceEntry → CachedPieceEntry → Bool)
    (p : CachedPieceEntry) : List CachedPieceEntry → List CachedPieceEntry
  | [] => [p]
  | q :: rest => if le p q then p :: q :: rest else q :: sortedInsertBy le p rest

/-- Snapshot ordering of a secondary index of the container: a sort of the
entry list by the index's comparator. -/
def sortPiecesBy (le : CachedPieceEntry → CachedPieceEntry → Bool) :
    List CachedPieceEntry → List CachedPieceEntry
  | [] => []
  | p :: rest => sortedInsertBy le p (sortPiecesBy le rest)

/-- Comparator of container index 1: `cheap_to_flush` descending. -/
def cheapDesc (p q : CachedPieceEntry) : Bool := q.cheap_to_flush ≤ p.cheap_to_flush

/-- Comparator of container index 0: `piece_location` ascending. -/
def locAsc (p q : CachedPieceEntry) : Bool :=
  p.piece.torrent < q.piece.torrent ∨
    (p.piece.torrent = q.piece.torrent ∧ p.piece.piece ≤ q.piece.piece)

/-- Phase B loop of `flush_to_disk` (lines 712-805) over the snapshot
ordered by `cheap_to_flush` descending: return from the whole call (final
`true`) when enough flushing is under way (`m_blocks - m_flushing_blocks ≤
target`), skip `flushing` pieces, break to Phase C at the first piece with
no cheap run, flush the suffix otherwise, and return from the whole call on
a short count. -/
def phaseBLoop (w : Writer) (target : Int) :
    List CachedPieceEntry → DiskCache → LoopResult
  | [], c => ⟨c, [], [], false⟩
  | p :: rest, c =>
    if c.m_blocks - c.m_flushing_blocks ≤ target then ⟨c, [], [], true⟩
    else if p.flushing then phaseBLoop w target rest c
    else if (p.hasher_cursor : Int) - (p.flushed_cursor : Int) ≤ 0 then ⟨c, [], [], false⟩
    else
      let r := phaseBPass w p c.m_blocks
      let c' : DiskCache :=
        { c with m_pieces := replacePiece c.m_pieces p.piece r.piece, m_blocks := r.mblocks }
      if r.ev.count < r.ev.requested then ⟨c', [r.ev], r.cevs, true⟩
      else
        let l := phaseBLoop w target rest c'
        ⟨l.cache, r.ev :: l.evs, r.cevs ++ l.cevs, l.stop⟩

/-- Phase C loop of `flush_to_disk` (lines 809-890) over the snapshot in
piece-location order: same ceiling check as Phase B, skip `flushing` pieces
and pieces with no write jobs, flush the whole span otherwise, and return
on a short count. -/
def phaseCLoop (w : Writer) (target : Int) :
    List CachedPieceEntry → DiskCache → LoopResult
  | [], c => ⟨c, [], [], false⟩
  | p :: rest, c =>
    if c.m_blocks - c.m_flushing_blocks ≤ target then ⟨c, [], [], true⟩
    else if p.flushing then phaseCLoop w target rest c
    else if count_jobs p.blocks == 0 then phaseCLoop w target rest c
    else
      let r := phaseCPass w .phaseC p c.m_blocks
      let c' : DiskCache :=
        { c with m_pieces := replacePiece c.m_pieces p.piece r.piece, m_blocks := r.mblocks }
      if r.ev.count < r.ev.requested then ⟨c', [r.ev], r.cevs, true⟩
      else
        let l := phaseCLoop w target rest c'
        ⟨l.cache, r.ev :: l.evs, r.cevs ++ l.cevs, l.stop⟩

/-- `disk_cache::flush_to_disk` (lines 594-891): Phase A over the
ready-first index, then (unless a short count ended the call) Phase B over
the cheap-to-flush index, then Phase C over the location index.  Returns
the new cache, the writer invocations and the `clear_piece_fun`
invocations. -/
def DiskCache.flush_to_disk (c : DiskCache) (w : Writer) (target : Int) : FlushResult :=
  let a := phaseALoop w (c.m_pieces.filter (fun p => p.ready_to_flush)) c
  if a.stop then ⟨a.cache, a.evs, a.cevs⟩
  else
    let b := phaseBLoop w target (sortPiecesBy cheapDesc a.cache.m_pieces) a.cache
    if b.stop then ⟨b.cache, a.evs ++ b.evs, a.cevs ++ b.cevs⟩
    else
      let k := phaseCLoop w target (sortPiecesBy locAsc b.cache.m_pieces) b.cache
      ⟨k.cache, a.evs ++ b.evs ++ k.evs, a.cevs ++ b.cevs ++ k.cevs⟩

/-- Insertion step of the piece-index snapshot sort of `flush_storage`. -/
def sortedInsertNat (n : Nat) : List Nat → List Nat
  | [] => [n]
  | m :: rest => if n ≤ m then n :: m :: rest else m :: sortedInsertNat n rest

/-- Ascending sort of the snapshotted piece indices (`equal_range` walks
the ordered index). -/
def sortNatAsc : List Nat → List Nat
  | [] => []
  | n :: rest => sortedInsertNat n (sortNatAsc rest)

/-- The `flush_storage` loop (lines 911-1002) over the snapshotted piece
indices: re-find each piece, skip it if gone, `flushing`, or without write
jobs; otherwise flush the whole span, run any parked clear and erase the
entry unconditionally.  A short count does not end the loop. -/
def flushStorageLoop (w : Writer) (storage : Nat) :
    List Nat → DiskCache → FlushResult
  | [], c => ⟨c, [], []⟩
  | pi :: rest, c =>
    let loc : PieceLocation := ⟨storage, pi⟩
    match findPiece c.m_pieces loc with
    | none => flushStorageLoop w storage rest c
    | some p =>
      if p.flushing then flushStorageLoop w storage rest c
      else if count_jobs p.blocks == 0 then flushStorageLoop w storage rest c
      else
        let r := phaseCPass w .storagePhase p c.m_blocks
        let c' : DiskCache := { c with
          m_pieces := erasePiece (replacePiece c.m_pieces loc r.piece) loc
          m_blocks := r.mblocks }
        let l := flushStorageLoop w storage rest c'
        ⟨l.cache, r.ev :: l.evs, r.cevs ++ l.cevs⟩

/-- `disk_cache::flush_storage` (lines 893-1003): snapshot the piece
indices of the storage from the ordered index, then run the loop. -/
def DiskCache.flush_storage (c : DiskCache) (w : Writer) (storage : Nat) : FlushResult :=
  let pieces := sortNatAsc
    ((c.m_pieces.filter (fun p => p.piece.torrent == storage)).map (fun p => p.piece.piece))
  flushStorageLoop w storage pieces c

/-- `disk_cache::size()`: the `m_blocks` counter. -/
def DiskCache.size (c : DiskCache) : Int := c.m_blocks

/-- The total count of block entries with a live write job across all
pieces, as walked by `check_invariant` (lines 1020-1067). -/
def dirtyCount (c : DiskCache) : Nat :=
  (c.m_pieces.map (fun p => count_jobs p.blocks)).sum

/-- The `dirty_blocks == m_blocks` assertion of `check_invariant`
(line 1065). -/
def dirtyBlocksInv (c : DiskCache) : Prop := (dirtyCount c : Int) = c.m_blocks

/-- The asserted preconditions of `insert` (lines 413-418): the slot is
vacant (`!blk.buf_holder`, `write_job == nullptr`, `!flushed_to_disk`), the
index is at or above both cursors, and — implicit in the source's unchecked
`blocks[block_idx]` — in bounds. -/
def insertPrecond (c : DiskCache) (env : Nat → PreadStorage) (loc : PieceLocation)
    (idx : Nat) : Bool :=
  let p := (insertBase c env loc).1
  decide (idx < p.blocks.length) &&
  (p.blocks.getD idx default).buf_holder.isNone &&
  (p.blocks.getD idx default).write_job.isNone &&
  !(p.blocks.getD idx default).flushed_to_disk &&
  decide (p.flushed_cursor ≤ idx) &&
  decide (p.hasher_cursor ≤ idx)

/-- The asserted preconditions of `try_hash_piece`: the piece hash was not
already returned (line 461), and no hash job is already hung when the call
would park one (line 484). -/
def tryHashPrecond (c : DiskCache) (loc : PieceLocation) : Bool :=
  match findPiece c.m_pieces loc with
  | none => true
  | some p =>
    !p.piece_hash_returned &&
    (if p.hashing && decide (p.hasher_cursor < p.blocks.length)
        && have_buffers (p.blocks.drop p.hasher_cursor)
      then p.hash_job.isNone else true)

/-- The writer contract (lines 591-593 and spec section 6): the returned
count equals the number of bits it set in the out-bitmap, and it sets a bit
only for a block that has a live write job (the flush loops assert this and
dereference that job). -/
def LawfulWriter (w : Writer) : Prop :=
  ∀ s h, (w s h).2 = (bitCount (w s h).1 s.length : Int) ∧
    ∀ i, i < s.length → getBit (w s h).1 i → (s.getD i default).write_job.isSome

/-- One public mutating operation of the cache, with the source's asserted
preconditions as guards; the pure queries (`get`, `get2`, `hash2`,
`hash_piece`, `size`, `num_flushing`) leave the state unchanged and are the
`query` step. -/
inductive CacheStep : DiskCache → DiskCache → Prop where
  | insert (c : DiskCache) (env : Nat → PreadStorage) (loc : PieceLocation)
      (idx : Nat) (wj : WriteJob) :
      insertPrecond c env loc idx = true →
      CacheStep c (c.insert env loc idx wj).2
  | kick (c : DiskCache) (loc : PieceLocation) :
      CacheStep c (c.kick_hasher loc).1
  | tryHash (c : DiskCache) (loc : PieceLocation) (hj : HashJob) :
      tryHashPrecond c loc = true →
      CacheStep c (c.try_hash_piece loc hj).2.1
  | tryClear (c : DiskCache) (loc : PieceLocation) (j : Nat) :
      CacheStep c (c.try_clear_piece loc j).2.1
  | flush (c : DiskCache) (w : Writer) (target : Int) :
      LawfulWriter w →
      CacheStep c (c.flush_to_disk w target).cache
  | flushStorage (c : DiskCache) (w : Writer) (sid : Nat) :
      LawfulWriter w →
      CacheStep c (c.flush_storage w sid).cache
  | query (c : DiskCache) : CacheStep c c

/-- A quiescent cache state of a valid trace: reachable from the empty
cache by the public operations. -/
def Reachable (c : DiskCache) : Prop :=
  Relation.ReflTransGen CacheStep {} c

/-- A storage of one-block pieces (piece size exactly one block), v1
hashes only. -/
def env1 : Nat → PreadStorage := fun _ => ⟨fun _ => 16384, true, false⟩

/-- A storage of three-block pieces, v1 hashes only. -/
def env3 : Nat → PreadStorage := fun _ => ⟨fun _ => 49152, true, false⟩

/-- Piece (torrent 0, index 0). -/
def loc00 : PieceLocation := ⟨0, 0⟩

/-- A writer that persists nothing: empty bitmap, count 0 (pure
backpressure, a lawful short count). -/
def zeroWriter : Writer := fun s _ => (List.replicate s.length false, 0)

/-- A writer that persists exactly the blocks holding a live write job. -/
def fullWriter : Writer := fun s _ =>
  (s.map (fun b => b.write_job.isSome), (count_jobs s : Int))

/-- C1 failing trace, step 1: insert the only block of a one-block piece. -/
def cBug1 : DiskCache := (DiskCache.insert {} env1 loc00 0 ⟨1, [7]⟩).2

/-- C1 failing trace, step 2: hash the piece to completion. -/
def cBug2 : DiskCache := (cBug1.kick_hasher loc00).1

/-- C1 failing trace, step 3: return the piece hash
(`piece_hash_returned := true`). -/
def cBug3 : DiskCache := (cBug2.try_hash_piece loc00 ⟨9, ⟨[]⟩, []⟩).2.1

/-- C1 failing trace, step 4: flush under backpressure.  Phase A erases the
piece (hash returned) although the writer flushed none of its blocks, so
the live write job vanishes while `m_blocks` stays 1. -/
def cBug4 : DiskCache := (cBug3.flush_to_disk zeroWriter 0).cache

/-- C2 counterexample trace, step 1: insert the only block of a one-block
piece. -/
def cRtf1 : DiskCache := (DiskCache.insert {} env1 loc00 0 ⟨1, [7]⟩).2

/-- C2 counterexample trace, step 2: flush the block completely.  The piece
stays (hash not returned) with its block `flushed_to_disk` and no write
job. -/
def cRtf2 : DiskCache := (cRtf1.flush_to_disk fullWriter 0).cache

/-- C2 counterexample trace, step 3: clear the piece.  `clear_piece_impl`
resets `ready_to_flush` but leaves `flushed_to_disk` set on the jobless
block, so afterwards every block is flushed yet `ready_to_flush` is
false. -/
def cRtf3 : DiskCache := (cRtf2.try_clear_piece loc00 5).2.1

/-- C3 counterexample trace, step 1-2: insert blocks 0 and 1 of a
three-block piece. -/
def cSpan2 : DiskCache :=
  ((DiskCache.insert {} env3 loc00 0 ⟨1, [1]⟩).2.insert env3 loc00 1 ⟨2, [2]⟩).2

/-- C3 counterexample trace, step 3: hash the two resident blocks
(`hasher_cursor = 2`, `flushed_cursor = 0`). -/
def cSpan3 : DiskCache := (cSpan2.kick_hasher loc00).1

/-- C3 counterexample: the Phase B flush of `cSpan3`.  The writer is handed
the whole three-block suffix even though `hasher_cursor - flushed_cursor =
2`. -/
def cSpan4 : FlushResult := cSpan3.flush_to_disk fullWriter 0

/-- C4 failing input: a two-block v1 piece, block 0 resident and block 1
missing, a hash job hung on the piece, nobody hashing.  Satisfies every
invariant of spec section 3. -/
def cHang : DiskCache :=
  { m_pieces := [
      { piece := loc00
        v1_hashes := true
        blocks := [{ write_job := some ⟨1, [7]⟩ }, {}]
        hash_job := some ⟨9, ⟨[]⟩, []⟩ }]
    m_blocks := 1 }

/-- C4 failing input evaluated: `kick_hasher` on `cHang`. -/
def cHangRun : DiskCache × List HashJob := cHang.kick_hasher loc00

/-- C8 counterexample: `flush_storage` over storage 0 on `cRtf2`, whose
only piece has no live write jobs and is skipped rather than erased. -/
def cStorRun : FlushResult := cRtf2.flush_storage fullWriter 0

/-- A block entry counts toward `ready_to_flush`: it has a live write job
or is already flushed (line 1059). -/
def blockOk (b : CachedBlockEntry) : Prop :=
  b.write_job.isSome = true ∨ b.flushed_to_disk = true

/-- The direction of the `ready_to_flush` invariant that `check_invariant`
asserts (lines 1058-1059): if the flag is set, every block has a write job
or is flushed. -/
def pieceReadyOk (p : CachedPieceEntry) : Prop :=
  p.ready_to_flush = true → ∀ b ∈ p.blocks, blockOk b

/-- Cache-wide forward `ready_to_flush` invariant. -/
def readyFwdInv (c : DiskCache) : Prop :=
  ∀ p ∈ c.m_pieces, pieceReadyOk p

/-- The biconditional `ready_to_flush` invariant claimed by the spec:
the flag is set iff every block has a write job or is flushed. -/
def readyIffInv (c : DiskCache) : Prop :=
  ∀ p ∈ c.m_pieces, (p.ready_to_flush = true ↔ ∀ b ∈ p.blocks, blockOk b)

/-- The events of one flush loop within a `flush_to_disk` log. -/
def eventsOfPhase (ph : FlushPhase) (evs : List FlushEvent) : List FlushEvent :=
  evs.filter (fun e => e.phase == ph)

/-- Only the last writer invocation of a `flush_to_disk` call may return a
short count: every event followed by another event was paid in full. -/
def shortOnlyLast (evs : List FlushEvent) : Prop :=
  ∀ pre x post, evs = pre ++ x :: post → post ≠ [] → ¬(x.count < x.requested)

/-- A writer that never reports backpressure: its count always equals the
span length. -/
def FullCountWriter (w : Writer) : Prop :=
  ∀ s h, (w s h).2 = (s.length : Int)

/-- The piece produced by one Phase A pass (it does not depend on the
`m_blocks` value threaded through the pass). -/
def phaseAPassPiece (w : Writer) (p : CachedPieceEntry) : CachedPieceEntry :=
  (phaseAPass w p 0).piece

/-- Key uniqueness of the container (`ordered_unique` / `hashed_unique`
indexes of the source container). -/
def uniqueKeys (c : DiskCache) : Prop :=
  (c.m_pieces.map (fun p => p.piece)).Nodup

/-- A writer with full count but an arbitrary bitmap: writes every
write-jobbed block yet reports the span length as its count. -/
def lengthWriter : Writer := fun s _ =>
  (s.map (fun b => b.write_job.isSome), (s.length : Int))

/-- The piece entry left in the cache by the C2 counterexample trace: its
single block is flushed, jobless, yet `ready_to_flush` is false. -/
def pRtf3 : CachedPieceEntry :=
  { piece := loc00
    v1_hashes := true
    blocks := [{ flushed_to_disk := true }] }

/-- The three-block piece of the C3 counterexample state `cSpan3`
(blocks 0 and 1 dirty and hashed, block 2 empty). -/
def pSpan3 : CachedPieceEntry :=
  (findPiece cSpan3.m_pieces loc00).getD { piece := loc00, blocks := [] }

/-- The one-block piece of `cRtf1` (inserted, dirty, ready to flush). -/
def pRtf1 : CachedPieceEntry :=
  (findPiece cRtf1.m_pieces loc00).getD { piece := loc00, blocks := [] }

/-- Every writer invocation in the list was paid in full (count not below
the requested number of blocks). -/
def allPaid (evs : List FlushEvent) : Prop :=
  ∀ ev ∈ evs, ¬(ev.count < ev.requested)

/-! ## Theorems -/

theorem getBit_nil (i : Nat) : getBit [] i = false := by
  cases i <;> rfl

theorem getBit_cons_zero (b : Bool) (bm : List Bool) : getBit (b :: bm) 0 = b := rfl

theorem getBit_cons_succ (b : Bool) (bm : List Bool) (i : Nat) :
    getBit (b :: bm) (i + 1) = getBit bm i := rfl

theorem bitCount_cons (b : Bool) (bm : List Bool) (n : Nat) :
    bitCount (b :: bm) (n + 1) = (if b then 1 else 0) + bitCount bm n := by
  simp only [bitCount, List.range_succ_eq_map, List.countP_cons, List.countP_map]
  simp [Function.comp_def, getBit_cons_succ, getBit_cons_zero, Nat.add_comm]

theorem getBit_replicate_false (m i : Nat) : getBit (List.replicate m false) i = false := by
  induction m generalizing i with
  | zero => exact getBit_nil i
  | succ k ih =>
    cases i with
    | zero => rfl
    | succ j => exact ih j

theorem bitCount_replicate_false (m n : Nat) : bitCount (List.replicate m false) n = 0 := by
  refine List.countP_eq_zero.mpr ?_
  intro i _
  simp [getBit_replicate_false]

theorem lawful_zeroWriter : LawfulWriter zeroWriter := by
  intro s h
  constructor
  · show (0 : Int) = _
    rw [show (zeroWriter s h).1 = List.replicate s.length false from rfl]
    rw [bitCount_replicate_false]
    rfl
  · intro i hi hbit
    rw [show (zeroWriter s h).1 = List.replicate s.length false from rfl,
      getBit_replicate_false] at hbit
    cases hbit

theorem bitCount_map_jobs (s : List CachedBlockEntry) :
    bitCount (s.map (fun b => b.write_job.isSome)) s.length = count_jobs s := by
  induction s with
  | nil => rfl
  | cons a t ih =>
    show bitCount (a.write_job.isSome :: t.map _) (t.length + 1) = _
    rw [bitCount_cons, ih]
    simp [count_jobs, List.countP_cons, Nat.add_comm]

theorem getBit_map_jobs (s : List CachedBlockEntry) (i : Nat) (h : i < s.length) :
    getBit (s.map (fun b => b.write_job.isSome)) i = (s.getD i default).write_job.isSome := by
  induction s generalizing i with
  | nil => cases h
  | cons a t ih =>
    cases i with
    | zero => rfl
    | succ n => exact ih n (Nat.lt_of_succ_lt_succ h)

theorem lawful_fullWriter : LawfulWriter fullWriter := by
  intro s h
  refine ⟨?_, ?_⟩
  · show (count_jobs s : Int) = _
    rw [show (fullWriter s h).1 = s.map (fun b => b.write_job.isSome) from rfl,
      bitCount_map_jobs]
  · intro i hi hbit
    rw [show (fullWriter s h).1 = s.map (fun b => b.write_job.isSome) from rfl,
      getBit_map_jobs s i hi] at hbit
    exact hbit

theorem reach_empty : Reachable {} := Relation.ReflTransGen.refl

theorem reach_cBug3 : Reachable cBug3 :=
  Relation.ReflTransGen.tail
    (Relation.ReflTransGen.tail
      (Relation.ReflTransGen.tail reach_empty
        (CacheStep.insert {} env1 loc00 0 ⟨1, [7]⟩ (by decide)))
      (CacheStep.kick cBug1 loc00))
    (CacheStep.tryHash cBug2 loc00 ⟨9, ⟨[]⟩, []⟩ (by decide))

theorem reach_cBug4 : Reachable cBug4 :=
  Relation.ReflTransGen.tail reach_cBug3
    (CacheStep.flush cBug3 zeroWriter 0 lawful_zeroWriter)

theorem reach_cRtf2 : Reachable cRtf2 :=
  Relation.ReflTransGen.tail
    (Relation.ReflTransGen.tail reach_empty
      (CacheStep.insert {} env1 loc00 0 ⟨1, [7]⟩ (by decide)))
    (CacheStep.flush cRtf1 fullWriter 0 lawful_fullWriter)

theorem reach_cRtf3 : Reachable cRtf3 :=
  Relation.ReflTransGen.tail reach_cRtf2 (CacheStep.tryClear cRtf2 loc00 5)

theorem reach_cSpan3 : Reachable cSpan3 :=
  Relation.ReflTransGen.tail
    (Relation.ReflTransGen.tail
      (Relation.ReflTransGen.tail reach_empty
        (CacheStep.insert {} env3 loc00 0 ⟨1, [1]⟩ (by decide)))
      (CacheStep.insert (DiskCache.insert {} env3 loc00 0 ⟨1, [1]⟩).2 env3 loc00 1
        ⟨2, [2]⟩ (by decide)))
    (CacheStep.kick cSpan2 loc00)

/-- C1: the claimed invariant — at every quiescent point of a valid trace,
with a writer whose count equals the bits it sets, the total number of
block entries holding a live write job equals `m_blocks` — is the code's
own `check_invariant` assertion, and the code violates it: in the reachable
state `cBug3` (one fully-hashed dirty one-block piece whose hash was
returned) a `flush_to_disk` under pure backpressure (lawful writer,
count 0) erases the piece while its write job is still live, leaving
`m_blocks = 1` with no write job in the container.  The invariant holds
before the call and fails after it. -/
theorem C1_dirty_blocks_code_bug :
    Reachable cBug3 ∧ LawfulWriter zeroWriter ∧ dirtyBlocksInv cBug3 ∧
      cBug4 = { m_pieces := [], m_blocks := 1 } ∧ ¬ dirtyBlocksInv cBug4 :=
  ⟨reach_cBug3, lawful_zeroWriter,
    by show (dirtyCount cBug3 : Int) = cBug3.m_blocks; decide,
    by decide,
    by show ¬ (dirtyCount cBug4 : Int) = cBug4.m_blocks; decide⟩

theorem compute_ready_iff (blocks : List CachedBlockEntry) :
    compute_ready_to_flush blocks = true ↔ ∀ b ∈ blocks, blockOk b := by
  simp [compute_ready_to_flush, List.all_eq_true, blockOk, Bool.or_eq_true]

theorem pieceReadyOk_of_compute (p : CachedPieceEntry)
    (h : p.ready_to_flush = compute_ready_to_flush p.blocks) : pieceReadyOk p := by
  intro hr
  rw [h] at hr
  exact (compute_ready_iff p.blocks).mp hr

theorem pieceReadyOk_false (p : CachedPieceEntry)
    (h : p.ready_to_flush = false) : pieceReadyOk p := by
  intro hr
  rw [h] at hr
  cases hr

theorem mem_replacePiece {ps : List CachedPieceEntry} {loc : PieceLocation}
    {q p' : CachedPieceEntry} (h : p' ∈ replacePiece ps loc q) : p' ∈ ps ∨ p' = q := by
  induction ps with
  | nil => cases h
  | cons a t ih =>
    rw [replacePiece] at h
    by_cases hc : (a.piece == loc) = true
    · rw [if_pos hc] at h
      rcases List.mem_cons.mp h with h1 | h2
      · exact Or.inr h1
      · exact Or.inl (List.mem_cons_of_mem a h2)
    · rw [if_neg hc] at h
      rcases List.mem_cons.mp h with h1 | h2
      · exact Or.inl (h1 ▸ List.mem_cons_self a t)
      · rcases ih h2 with h3 | h3
        · exact Or.inl (List.mem_cons_of_mem a h3)
        · exact Or.inr h3

theorem mem_erasePiece {ps : List CachedPieceEntry} {loc : PieceLocation}
    {p' : CachedPieceEntry} (h : p' ∈ erasePiece ps loc) : p' ∈ ps := by
  induction ps with
  | nil => cases h
  | cons a t ih =>
    rw [erasePiece] at h
    by_cases hc : (a.piece == loc) = true
    · rw [if_pos hc] at h
      exact List.mem_cons_of_mem a h
    · rw [if_neg hc] at h
      rcases List.mem_cons.mp h with h1 | h2
      · exact h1 ▸ List.mem_cons_self a t
      · exact List.mem_cons_of_mem a (ih h2)

theorem mem_applyWriterUpdate {hc : Nat} {bm : List Bool} :
    ∀ {i : Nat} {s : List CachedBlockEntry} {b' : CachedBlockEntry},
      b' ∈ applyWriterUpdate hc bm i s → b' ∈ s ∨ b'.flushed_to_disk = true := by
  intro i s
  induction s generalizing i with
  | nil => intro b' h; cases h
  | cons a t ih =>
    intro b' h
    rw [applyWriterUpdate] at h
    rcases List.mem_cons.mp h with h1 | h2
    · by_cases hbit : getBit bm i
      · rw [if_pos hbit] at h1
        cases hj : a.write_job with
        | some j =>
          rw [hj] at h1
          right
          rw [h1]
        | none =>
          rw [hj] at h1
          exact Or.inl (h1 ▸ List.mem_cons_self a t)
      · rw [if_neg hbit] at h1
        exact Or.inl (h1 ▸ List.mem_cons_self a t)
    · rcases ih h2 with h3 | h3
      · exact Or.inl (List.mem_cons_of_mem a h3)
      · exact Or.inr h3

theorem mem_of_mem_takeWhile {p : CachedBlockEntry → Bool}
    {l : List CachedBlockEntry} {b : CachedBlockEntry}
    (h : b ∈ l.takeWhile p) : b ∈ l := by
  induction l with
  | nil => cases h
  | cons a t ih =>
    rw [List.takeWhile] at h
    cases hp : p a with
    | true =>
      rw [hp] at h
      rcases List.mem_cons.mp h with h1 | h2
      · exact h1 ▸ List.mem_cons_self a t
      · exact List.mem_cons_of_mem a (ih h2)
    | false =>
      rw [hp] at h
      cases h

theorem mem_hashRunBlocks {v2 : Bool} :
    ∀ {s : List CachedBlockEntry} {b' : CachedBlockEntry},
      b' ∈ hashRunBlocks v2 s →
      ∃ b ∈ s, b'.write_job = b.write_job ∧ b'.flushed_to_disk = b.flushed_to_disk := by
  intro s
  induction s with
  | nil => intro b' h; cases h
  | cons a t ih =>
    intro b' h
    rw [hashRunBlocks] at h
    rcases List.mem_cons.mp h with h1 | h2
    · exact ⟨a, List.mem_cons_self a t, by rw [h1], by rw [h1]⟩
    · rcases ih h2 with ⟨b, hb, e1, e2⟩
      exact ⟨b, List.mem_cons_of_mem a hb, e1, e2⟩

theorem kickPass_blocks_mem {v1 v2 : Bool} {st : KickState}
    {b' : CachedBlockEntry} (hb' : b' ∈ (kickPass v1 v2 st).blocks) :
    ∃ b ∈ st.blocks, b'.write_job = b.write_job ∧ b'.flushed_to_disk = b.flushed_to_disk := by
  rw [kickPass] at hb'
  rcases List.mem_append.mp hb' with h12 | h3
  · rcases List.mem_append.mp h12 with h1 | h2
    · exact ⟨b', List.take_subset _ _ h1, rfl, rfl⟩
    · rcases mem_hashRunBlocks h2 with ⟨b, hb, e1, e2⟩
      exact ⟨b, List.drop_subset _ _ (mem_of_mem_takeWhile hb), e1, e2⟩
  · exact ⟨b', List.drop_subset _ _ h3, rfl, rfl⟩

theorem kickLoop_blocks_mem (v1 v2 : Bool) (fuel : Nat) :
    ∀ (st : KickState) {b' : CachedBlockEntry},
      b' ∈ (kickLoop v1 v2 fuel st).blocks →
      ∃ b ∈ st.blocks, b'.write_job = b.write_job ∧ b'.flushed_to_disk = b.flushed_to_disk := by
  induction fuel with
  | zero => intro st b' h; exact ⟨b', h, rfl, rfl⟩
  | succ n ih =>
    intro st b' h
    rw [kickLoop] at h
    split at h
    · rcases ih _ h with ⟨m, hm, e1, e2⟩
      rcases kickPass_blocks_mem hm with ⟨b, hb, f1, f2⟩
      exact ⟨b, hb, e1.trans f1, e2.trans f2⟩
    · rcases kickPass_blocks_mem h with ⟨b, hb, f1, f2⟩
      exact ⟨b, hb, f1, f2⟩

theorem pieceReadyOk_of_blocks_mem {p p' : CachedPieceEntry}
    (hok : pieceReadyOk p) (hr : p'.ready_to_flush = p.ready_to_flush)
    (hmem : ∀ b' ∈ p'.blocks,
      ∃ b ∈ p.blocks, b'.write_job = b.write_job ∧ b'.flushed_to_disk = b.flushed_to_disk) :
    pieceReadyOk p' := by
  intro hready b' hb'
  rcases hmem b' hb' with ⟨b, hb, e1, e2⟩
  rcases hok (hr ▸ hready) b hb with h | h
  · exact Or.inl (e1 ▸ h)
  · exact Or.inr (e2 ▸ h)

theorem pieces_ok_replace {ps : List CachedPieceEntry} {loc : PieceLocation}
    {q : CachedPieceEntry} (h : ∀ x ∈ ps, pieceReadyOk x) (hq : pieceReadyOk q) :
    ∀ x ∈ replacePiece ps loc q, pieceReadyOk x := by
  intro x hx
  rcases mem_replacePiece hx with h1 | rfl
  · exact h x h1
  · exact hq

theorem pieces_ok_erase {ps : List CachedPieceEntry} {loc : PieceLocation}
    (h : ∀ x ∈ ps, pieceReadyOk x) :
    ∀ x ∈ erasePiece ps loc, pieceReadyOk x :=
  fun x hx => h x (mem_erasePiece hx)

theorem readyFwdInv_insert (c : DiskCache) (env : Nat → PreadStorage)
    (loc : PieceLocation) (idx : Nat) (wj : WriteJob) (h : readyFwdInv c) :
    readyFwdInv (c.insert env loc idx wj).2 := by
  intro q hq
  rcases mem_replacePiece hq with hmem | rfl
  · rw [insertBase] at hmem
    cases hf : findPiece c.m_pieces loc with
    | some p =>
      rw [hf] at hmem
      exact h q hmem
    | none =>
      rw [hf] at hmem
      rcases List.mem_append.mp hmem with h1 | h2
      · exact h q h1
      · rcases List.mem_singleton.mp h2 with rfl
        exact pieceReadyOk_false _ rfl
  · exact pieceReadyOk_of_compute _ rfl

theorem readyFwdInv_kick (c : DiskCache) (loc : PieceLocation) (h : readyFwdInv c) :
    readyFwdInv (c.kick_hasher loc).1 := by
  intro q hq
  rw [DiskCache.kick_hasher] at hq
  cases hf : findPiece c.m_pieces loc with
  | none =>
    rw [hf] at hq
    exact h q hq
  | some p =>
    rw [hf] at hq
    dsimp only at hq
    by_cases hh : p.hashing = true
    · rw [if_pos hh] at hq
      exact h q hq
    · rw [if_neg hh] at hq
      have hpok : pieceReadyOk p := h p (List.mem_of_find?_eq_some hf)
      cases hj : p.hash_job with
      | none =>
        rw [hj] at hq
        rcases mem_replacePiece hq with hmem | rfl
        · exact h q hmem
        · refine pieceReadyOk_of_blocks_mem hpok rfl ?_
          intro b' hb'
          exact kickLoop_blocks_mem p.v1_hashes p.v2_hashes (p.blocks.length + 1) _ hb'
      | some hjob =>
        rw [hj] at hq
        rcases mem_replacePiece hq with hmem | rfl
        · exact h q hmem
        · exact pieceReadyOk_of_compute _ rfl

theorem readyFwdInv_tryHash (c : DiskCache) (loc : PieceLocation) (hj : HashJob)
    (h : readyFwdInv c) : readyFwdInv (c.try_hash_piece loc hj).2.1 := by
  intro q hq
  rw [DiskCache.try_hash_piece] at hq
  cases hf : findPiece c.m_pieces loc with
  | none =>
    rw [hf] at hq
    exact h q hq
  | some p =>
    rw [hf] at hq
    dsimp only at hq
    have hpok : pieceReadyOk p := h p (List.mem_of_find?_eq_some hf)
    split at hq
    · rcases mem_replacePiece hq with hmem | rfl
      · exact h q hmem
      · exact fun hr => hpok hr
    · split at hq
      · rcases mem_replacePiece hq with hmem | rfl
        · exact h q hmem
        · exact fun hr => hpok hr
      · exact h q hq

theorem readyFwdInv_tryClear (c : DiskCache) (loc : PieceLocation) (j : Nat)
    (h : readyFwdInv c) : readyFwdInv (c.try_clear_piece loc j).2.1 := by
  intro q hq
  rw [DiskCache.try_clear_piece] at hq
  cases hf : findPiece c.m_pieces loc with
  | none =>
    rw [hf] at hq
    exact h q hq
  | some p =>
    rw [hf] at hq
    dsimp only at hq
    have hpok : pieceReadyOk p := h p (List.mem_of_find?_eq_some hf)
    split at hq
    · rcases mem_replacePiece hq with hmem | rfl
      · exact h q hmem
      · exact fun hr => hpok hr
    · split at hq
      · rcases mem_replacePiece hq with hmem | rfl
        · exact h q hmem
        · exact fun hr => hpok hr
      · rcases mem_replacePiece hq with hmem | rfl
        · exact h q hmem
        · exact pieceReadyOk_false _ rfl

theorem runParkedClear_ready (p : CachedPieceEntry) (m : Int) (h : pieceReadyOk p) :
    pieceReadyOk (runParkedClear p m).1 := by
  rw [runParkedClear]
  cases hc : p.clear_piece with
  | none => exact h
  | some j => exact pieceReadyOk_false _ rfl

theorem phaseAPass_piece_ready (w : Writer) (p : CachedPieceEntry) (m : Int) :
    pieceReadyOk (phaseAPass w p m).piece := by
  apply runParkedClear_ready
  exact pieceReadyOk_of_compute _ rfl

theorem phaseBPass_piece_ready (w : Writer) (p : CachedPieceEntry) (m : Int)
    (h : pieceReadyOk p) : pieceReadyOk (phaseBPass w p m).piece := by
  apply runParkedClear_ready
  intro hr b' hb'
  have hro : p.ready_to_flush = true := hr
  rcases List.mem_append.mp hb' with h1 | h2
  · exact h hro b' (List.take_subset _ _ h1)
  · rcases mem_applyWriterUpdate h2 with h3 | h3
    · exact h hro b' (List.drop_subset _ _ h3)
    · exact Or.inr h3

theorem phaseCPass_piece_ready (w : Writer) (phase : FlushPhase) (p : CachedPieceEntry)
    (m : Int) (h : pieceReadyOk p) : pieceReadyOk (phaseCPass w phase p m).piece := by
  apply runParkedClear_ready
  intro hr b' hb'
  have hro : p.ready_to_flush = true := hr
  rcases mem_applyWriterUpdate hb' with h3 | h3
  · exact h hro b' h3
  · exact Or.inr h3

theorem mem_sortedInsertBy {le : CachedPieceEntry → CachedPieceEntry → Bool}
    {p : CachedPieceEntry} :
    ∀ {l : List CachedPieceEntry} {x : CachedPieceEntry},
      x ∈ sortedInsertBy le p l → x = p ∨ x ∈ l := by
  intro l
  induction l with
  | nil =>
    intro x hx
    rw [sortedInsertBy] at hx
    exact Or.inl (List.mem_singleton.mp hx)
  | cons a t ih =>
    intro x hx
    rw [sortedInsertBy] at hx
    split at hx
    · rcases List.mem_cons.mp hx with h1 | h2
      · exact Or.inl h1
      · exact Or.inr h2
    · rcases List.mem_cons.mp hx with h1 | h2
      · exact Or.inr (h1 ▸ List.mem_cons_self a t)
      · rcases ih h2 with h3 | h3
        · exact Or.inl h3
        · exact Or.inr (List.mem_cons_of_mem a h3)

theorem mem_sortPiecesBy {le : CachedPieceEntry → CachedPieceEntry → Bool} :
    ∀ {l : List CachedPieceEntry} {x : CachedPieceEntry},
      x ∈ sortPiecesBy le l → x ∈ l := by
  intro l
  induction l with
  | nil => intro x hx; cases hx
  | cons a t ih =>
    intro x hx
    rw [sortPiecesBy] at hx
    rcases mem_sortedInsertBy hx with h1 | h2
    · exact h1 ▸ List.mem_cons_self a t
    · exact List.mem_cons_of_mem a (ih h2)

theorem phaseALoop_inv (w : Writer) :
    ∀ (l : List CachedPieceEntry) (c : DiskCache), readyFwdInv c →
      readyFwdInv (phaseALoop w l c).cache := by
  intro l
  induction l with
  | nil => intro c h; exact h
  | cons p rest ih =>
    intro c h
    rw [phaseALoop]
    dsimp only
    by_cases hfl : p.flushing = true
    · rw [if_pos hfl]
      exact ih c h
    · rw [if_neg hfl]
      have hc' : ∀ x ∈ (if (phaseAPass w p c.m_blocks).piece.piece_hash_returned = true then
          erasePiece c.m_pieces p.piece
          else replacePiece c.m_pieces p.piece (phaseAPass w p c.m_blocks).piece),
          pieceReadyOk x := by
        split
        · exact pieces_ok_erase h
        · exact pieces_ok_replace h (phaseAPass_piece_ready w p c.m_blocks)
      split
      · exact hc'
      · exact ih _ hc'

theorem phaseBLoop_inv (w : Writer) (target : Int) :
    ∀ (l : List CachedPieceEntry) (c : DiskCache),
      (∀ x ∈ l, pieceReadyOk x) → readyFwdInv c →
      readyFwdInv (phaseBLoop w target l c).cache := by
  intro l
  induction l with
  | nil => intro c _ h; exact h
  | cons p rest ih =>
    intro c hs h
    rw [phaseBLoop]
    dsimp only
    split
    · exact h
    · split
      · exact ih c (fun x hx => hs x (List.mem_cons_of_mem p hx)) h
      · split
        · exact h
        · have hc' : ∀ x ∈ replacePiece c.m_pieces p.piece (phaseBPass w p c.m_blocks).piece,
              pieceReadyOk x :=
            pieces_ok_replace h
              (phaseBPass_piece_ready w p c.m_blocks (hs p (List.mem_cons_self p rest)))
          split
          · exact hc'
          · exact ih _ (fun x hx => hs x (List.mem_cons_of_mem p hx)) hc'

theorem phaseCLoop_inv (w : Writer) (target : Int) :
    ∀ (l : List CachedPieceEntry) (c : DiskCache),
      (∀ x ∈ l, pieceReadyOk x) → readyFwdInv c →
      readyFwdInv (phaseCLoop w target l c).cache := by
  intro l
  induction l with
  | nil => intro c _ h; exact h
  | cons p rest ih =>
    intro c hs h
    rw [phaseCLoop]
    dsimp only
    split
    · exact h
    · split
      · exact ih c (fun x hx => hs x (List.mem_cons_of_mem p hx)) h
      · split
        · exact ih c (fun x hx => hs x (List.mem_cons_of_mem p hx)) h
        · have hc' : ∀ x ∈ replacePiece c.m_pieces p.piece
              (phaseCPass w .phaseC p c.m_blocks).piece, pieceReadyOk x :=
            pieces_ok_replace h
              (phaseCPass_piece_ready w .phaseC p c.m_blocks (hs p (List.mem_cons_self p rest)))
          split
          · exact hc'
          · exact ih _ (fun x hx => hs x (List.mem_cons_of_mem p hx)) hc'

theorem readyFwdInv_flush (c : DiskCache) (w : Writer) (target : Int)
    (h : readyFwdInv c) : readyFwdInv (c.flush_to_disk w target).cache := by
  rw [DiskCache.flush_to_disk]
  dsimp only
  have hA := phaseALoop_inv w (c.m_pieces.filter (fun p => p.ready_to_flush)) c h
  have hB := phaseBLoop_inv w target
    (sortPiecesBy cheapDesc (phaseALoop w (c.m_pieces.filter (fun p => p.ready_to_flush)) c).cache.m_pieces)
    (phaseALoop w (c.m_pieces.filter (fun p => p.ready_to_flush)) c).cache
    (fun x hx => hA x (mem_sortPiecesBy hx)) hA
  have hC := phaseCLoop_inv w target
    (sortPiecesBy locAsc (phaseBLoop w target
      (sortPiecesBy cheapDesc (phaseALoop w (c.m_pieces.filter (fun p => p.ready_to_flush)) c).cache.m_pieces)
      (phaseALoop w (c.m_pieces.filter (fun p => p.ready_to_flush)) c).cache).cache.m_pieces)
    (phaseBLoop w target
      (sortPiecesBy cheapDesc (phaseALoop w (c.m_pieces.filter (fun p => p.ready_to_flush)) c).cache.m_pieces)
      (phaseALoop w (c.m_pieces.filter (fun p => p.ready_to_flush)) c).cache).cache
    (fun x hx => hB x (mem_sortPiecesBy hx)) hB
  split
  · exact hA
  · split
    · exact hB
    · exact hC

theorem readyFwdInv_flushStorageLoop (w : Writer) (sid : Nat) :
    ∀ (l : List Nat) (c : DiskCache), readyFwdInv c →
      readyFwdInv (flushStorageLoop w sid l c).cache := by
  intro l
  induction l with
  | nil => intro c h; exact h
  | cons pi rest ih =>
    intro c h
    rw [flushStorageLoop]
    dsimp only
    cases hf : findPiece c.m_pieces ⟨sid, pi⟩ with
    | none =>
      dsimp only
      exact ih c h
    | some p =>
      dsimp only
      have hpok : pieceReadyOk p := h p (List.mem_of_find?_eq_some hf)
      split
      · exact ih c h
      · split
        · exact ih c h
        · exact ih _ (pieces_ok_erase (pieces_ok_replace h
            (phaseCPass_piece_ready w .storagePhase p c.m_blocks hpok)))

theorem readyFwdInv_flushStorage (c : DiskCache) (w : Writer) (sid : Nat)
    (h : readyFwdInv c) : readyFwdInv (c.flush_storage w sid).cache := by
  rw [DiskCache.flush_storage]
  exact readyFwdInv_flushStorageLoop w sid _ c h

theorem readyFwdInv_step {c c' : DiskCache} (hs : CacheStep c c') (h : readyFwdInv c) :
    readyFwdInv c' := by
  cases hs with
  | insert env loc idx wj hpre => exact readyFwdInv_insert c env loc idx wj h
  | kick loc => exact readyFwdInv_kick c loc h
  | tryHash loc hj hpre => exact readyFwdInv_tryHash c loc hj h
  | tryClear loc j => exact readyFwdInv_tryClear c loc j h
  | flush w target hw => exact readyFwdInv_flush c w target h
  | flushStorage w sid hw => exact readyFwdInv_flushStorage c w sid h
  | query => exact h

/-- C2 counterexample: the claimed biconditional — `ready_to_flush` iff
every block has a write job or is flushed — fails at the reachable,
quiescent state `cRtf3`: after inserting, fully flushing and then clearing
a one-block piece, `clear_piece_impl` has left the jobless block with
`flushed_to_disk = true` but reset `ready_to_flush` to `false`, so the
right-hand side holds while the flag is false. -/
theorem C2_ready_iff_counterexample : Reachable cRtf3 ∧ ¬ readyIffInv cRtf3 := by
  refine ⟨reach_cRtf3, fun h => ?_⟩
  have hmem : pRtf3 ∈ cRtf3.m_pieces := by
    rw [show cRtf3.m_pieces = [pRtf3] from by decide]
    exact List.mem_singleton.mpr rfl
  have hall : ∀ b ∈ pRtf3.blocks, blockOk b := by
    intro b hb
    rw [show pRtf3.blocks = [{ flushed_to_disk := true }] from rfl] at hb
    rcases List.mem_singleton.mp hb with rfl
    exact Or.inr rfl
  have := (h pRtf3 hmem).mpr hall
  exact absurd this (by decide)

/-- C2 (amended): at every quiescent point of a valid trace the forward
direction holds — the direction `check_invariant` itself asserts (line
1059): whenever a piece's `ready_to_flush` flag is set, every one of its
blocks has a live write job or `flushed_to_disk` set.  This is preserved by
insert, kick_hasher, try_hash_piece, try_clear_piece, flush_to_disk and
flush_storage. -/
theorem C2_ready_fwd_invariant (c : DiskCache) (h : Reachable c) : readyFwdInv c := by
  induction h with
  | refl => intro p hp; cases hp
  | tail _ hstep ih => exact readyFwdInv_step hstep ih

/-- C2 witness: the amended invariant instantiated at the concrete
reachable state of the counterexample trace. -/
theorem C2_ready_fwd_invariant_witness : readyFwdInv cRtf3 :=
  C2_ready_fwd_invariant cRtf3 reach_cRtf3

/-- C4: the claim — `kick_hasher` posts a hung hash job only when
`hasher_cursor == blocks_in_piece` — matches the source's own comment
("we've hashed all blocks, and there's a hash job associated with this
piece, post it", lines 573-574), but the code falls through to the posting
when the cursor stalls at a missing block (lines 557-564 do not return):
on `cHang` (two-block piece, block 0 resident, block 1 missing, hash job
hung, `hasher_cursor = 0`) it posts the job carrying the SHA-1 of block 0
alone while the new `hasher_cursor` is 1 of 2. -/
theorem C4_kick_hasher_code_bug :
    cHang.m_pieces.map (fun p => (p.hasher_cursor, p.blocks.length, p.hash_job.isSome))
        = [(0, 2, true)] ∧
    cHangRun.2 = [⟨9, ⟨[[7]]⟩, []⟩] ∧
    (findPiece cHangRun.1.m_pieces loc00).map
        (fun p => (p.hasher_cursor, p.blocks.length, p.hash_job.isSome))
      = some (1, 2, false) :=
  ⟨by decide, by decide, by decide⟩

/-- C10: when the piece is present, `get2` reads `blocks[block_idx]` and
`blocks[block_idx + 1]` unconditionally; in the total embedding both
accesses produce a value (the call returns `some`) whenever
`block_idx + 1 < blocks_in_piece`, and for `block_idx = blocks_in_piece -
1` the second access is out of bounds (the call hits the error value
`none`). -/
theorem C10_get2_bounds (c : DiskCache) (loc : PieceLocation) (idx : Nat)
    (f : Option Buf → Option Buf → Int) (p : CachedPieceEntry)
    (hf : findPiece c.m_pieces loc = some p) :
    (idx + 1 < p.blocks.length → (c.get2 loc idx f).isSome = true) ∧
    (p.blocks ≠ [] → idx = p.blocks.length - 1 → c.get2 loc idx f = none) := by
  constructor
  · intro hlt
    rw [DiskCache.get2, hf]
    dsimp only
    have h1 : idx < p.blocks.length := Nat.lt_of_succ_lt hlt
    rw [List.getElem?_eq_getElem h1, List.getElem?_eq_getElem hlt]
    dsimp only
    split
    · rfl
    · rfl
  · intro hne hidx
    rw [DiskCache.get2, hf]
    dsimp only
    have hlen : p.blocks.length ≠ 0 := fun h0 => hne (List.length_eq_zero.mp h0)
    have h2 : p.blocks.length ≤ idx + 1 := by omega
    rw [List.getElem?_eq_none h2]
    cases hb1 : p.blocks[idx]? with
    | none => rfl
    | some b1 => rfl

/-- C10 witness: on the three-block piece of `cSpan3`, `get2` at index 0
succeeds and `get2` at the last index (2 = 3 - 1) hits the out-of-bounds
access. -/
theorem C10_get2_bounds_witness :
    (cSpan3.get2 loc00 0 (fun _ _ => 0)).isSome = true ∧
      cSpan3.get2 loc00 2 (fun _ _ => 0) = none :=
  ⟨(C10_get2_bounds cSpan3 loc00 0 (fun _ _ => 0) _ rfl).1 (by decide),
   (C10_get2_bounds cSpan3 loc00 2 (fun _ _ => 0) _ rfl).2 (by decide) (by decide)⟩

theorem findPiece_key {ps : List CachedPieceEntry} {loc : PieceLocation}
    {p : CachedPieceEntry} (h : findPiece ps loc = some p) : p.piece = loc := by
  have := List.find?_some h
  simpa using this

theorem findPiece_replace_self {ps : List CachedPieceEntry} {loc : PieceLocation}
    {p q : CachedPieceEntry} (h : findPiece ps loc = some p) (hq : q.piece = loc) :
    findPiece (replacePiece ps loc q) loc = some q := by
  induction ps with
  | nil => cases h
  | cons a t ih =>
    rw [replacePiece]
    by_cases hc : (a.piece == loc) = true
    · rw [if_pos hc]
      show List.find? (fun x => x.piece == loc) (q :: t) = some q
      exact List.find?_cons_of_pos _ (by simpa using hq)
    · rw [if_neg hc]
      have hstep : List.find? (fun x => x.piece == loc) (a :: replacePiece t loc q)
          = List.find? (fun x => x.piece == loc) (replacePiece t loc q) :=
        List.find?_cons_of_neg _ hc
      have hstep2 : List.find? (fun x => x.piece == loc) (a :: t)
          = List.find? (fun x => x.piece == loc) t :=
        List.find?_cons_of_neg _ hc
      rw [findPiece, hstep]
      rw [findPiece, hstep2] at h
      exact ih h

theorem completed_cond_iff (p : CachedPieceEntry) :
    (!p.hashing && p.hasher_cursor == p.blocks.length) = true ↔
      p.hashing = false ∧ p.hasher_cursor = p.blocks.length := by
  simp [Bool.and_eq_true, Bool.not_eq_true']

theorem queued_cond_iff (p : CachedPieceEntry) :
    (p.hashing && decide (p.hasher_cursor < p.blocks.length)
      && have_buffers (p.blocks.drop p.hasher_cursor)) = true ↔
      p.hashing = true ∧ p.hasher_cursor < p.blocks.length ∧
        have_buffers (p.blocks.drop p.hasher_cursor) = true := by
  simp [Bool.and_eq_true, and_assoc]

theorem try_hash_piece_completed {c : DiskCache} {loc : PieceLocation} {hj : HashJob}
    {p : CachedPieceEntry} (hf : findPiece c.m_pieces loc = some p)
    (h1 : p.hashing = false) (h2 : p.hasher_cursor = p.blocks.length) :
    c.try_hash_piece loc hj =
      (.job_completed,
        { c with m_pieces := replacePiece c.m_pieces loc { p with piece_hash_returned := true } },
        { hj with piece_hash := p.ph.final }) := by
  rw [DiskCache.try_hash_piece, hf]
  dsimp only
  rw [h1, h2]
  simp

theorem try_hash_piece_queued {c : DiskCache} {loc : PieceLocation} {hj : HashJob}
    {p : CachedPieceEntry} (hf : findPiece c.m_pieces loc = some p)
    (h1 : p.hashing = true) (h2 : p.hasher_cursor < p.blocks.length)
    (h3 : have_buffers (p.blocks.drop p.hasher_cursor) = true) :
    c.try_hash_piece loc hj =
      (.job_queued,
        { c with m_pieces := replacePiece c.m_pieces loc { p with hash_job := some hj } },
        hj) := by
  rw [DiskCache.try_hash_piece, hf]
  dsimp only
  rw [h1, h3]
  simp [h2]

/-- C5: `try_hash_piece` returns `job_completed` exactly when the piece is
present, not hashing, and `hasher_cursor = blocks_in_piece` (then the
finalised SHA-1 is written into the job and `piece_hash_returned` is set);
it returns `job_queued` exactly when the piece is present, hashing, the
cursor is short of the end and every block from the cursor on is resident
(then the job is parked as `hash_job`); in every other case it returns
`post_job` and leaves the cache unchanged. -/
theorem C5_try_hash_piece_trichotomy (c : DiskCache) (loc : PieceLocation) (hj : HashJob) :
    ((c.try_hash_piece loc hj).1 = hash_result.job_completed ↔
      ∃ p, findPiece c.m_pieces loc = some p ∧ p.hashing = false ∧
        p.hasher_cursor = p.blocks.length) ∧
    ((c.try_hash_piece loc hj).1 = hash_result.job_queued ↔
      ∃ p, findPiece c.m_pieces loc = some p ∧ p.hashing = true ∧
        p.hasher_cursor < p.blocks.length ∧
        have_buffers (p.blocks.drop p.hasher_cursor) = true) ∧
    (∀ p, findPiece c.m_pieces loc = some p → p.hashing = false →
      p.hasher_cursor = p.blocks.length →
      (c.try_hash_piece loc hj).2.2 = { hj with piece_hash := p.ph.final } ∧
        findPiece (c.try_hash_piece loc hj).2.1.m_pieces loc =
          some { p with piece_hash_returned := true }) ∧
    (∀ p, findPiece c.m_pieces loc = some p → p.hashing = true →
      p.hasher_cursor < p.blocks.length →
      have_buffers (p.blocks.drop p.hasher_cursor) = true →
      (c.try_hash_piece loc hj).2.2 = hj ∧
        findPiece (c.try_hash_piece loc hj).2.1.m_pieces loc =
          some { p with hash_job := some hj }) ∧
    ((c.try_hash_piece loc hj).1 = hash_result.post_job →
      (c.try_hash_piece loc hj).2.1 = c ∧ (c.try_hash_piece loc hj).2.2 = hj) := by
  refine ⟨?_, ?_, ?_, ?_, ?_⟩
  · constructor
    · intro hres
      cases hf : findPiece c.m_pieces loc with
      | none =>
        rw [DiskCache.try_hash_piece, hf] at hres
        dsimp only at hres
        exact absurd hres (by decide)
      | some p =>
        rw [DiskCache.try_hash_piece, hf] at hres
        dsimp only at hres
        by_cases hcond : (!p.hashing && p.hasher_cursor == p.blocks.length) = true
        · rcases (completed_cond_iff p).mp hcond with ⟨h1, h2⟩
          exact ⟨p, rfl, h1, h2⟩
        · rw [if_neg hcond] at hres
          by_cases hcond2 : (p.hashing && decide (p.hasher_cursor < p.blocks.length)
              && have_buffers (p.blocks.drop p.hasher_cursor)) = true
          · rw [if_pos hcond2] at hres
            simp at hres
          · rw [if_neg hcond2] at hres
            simp at hres
    · rintro ⟨p, hf, h1, h2⟩
      rw [try_hash_piece_completed hf h1 h2]
  · constructor
    · intro hres
      cases hf : findPiece c.m_pieces loc with
      | none =>
        rw [DiskCache.try_hash_piece, hf] at hres
        dsimp only at hres
        exact absurd hres (by decide)
      | some p =>
        rw [DiskCache.try_hash_piece, hf] at hres
        dsimp only at hres
        by_cases hcond : (!p.hashing && p.hasher_cursor == p.blocks.length) = true
        · rw [if_pos hcond] at hres
          simp at hres
        · rw [if_neg hcond] at hres
          by_cases hcond2 : (p.hashing && decide (p.hasher_cursor < p.blocks.length)
              && have_buffers (p.blocks.drop p.hasher_cursor)) = true
          · rcases (queued_cond_iff p).mp hcond2 with ⟨h1, h2, h3⟩
            exact ⟨p, rfl, h1, h2, h3⟩
          · rw [if_neg hcond2] at hres
            simp at hres
    · rintro ⟨p, hf, h1, h2, h3⟩
      rw [try_hash_piece_queued hf h1 h2 h3]
  · intro p hf h1 h2
    rw [try_hash_piece_completed hf h1 h2]
    have hkey : p.piece = loc := findPiece_key hf
    exact ⟨rfl, findPiece_replace_self hf hkey⟩
  · intro p hf h1 h2 h3
    rw [try_hash_piece_queued hf h1 h2 h3]
    have hkey : p.piece = loc := findPiece_key hf
    exact ⟨rfl, findPiece_replace_self hf hkey⟩
  · intro hres
    cases hf : findPiece c.m_pieces loc with
    | none =>
      rw [DiskCache.try_hash_piece, hf]
      exact ⟨rfl, rfl⟩
    | some p =>
      rw [DiskCache.try_hash_piece, hf] at hres ⊢
      dsimp only at hres ⊢
      by_cases hcond : (!p.hashing && p.hasher_cursor == p.blocks.length) = true
      · rw [if_pos hcond] at hres
        simp at hres
      · rw [if_neg hcond] at hres ⊢
        by_cases hcond2 : (p.hashing && decide (p.hasher_cursor < p.blocks.length)
            && have_buffers (p.blocks.drop p.hasher_cursor)) = true
        · rw [if_pos hcond2] at hres
          simp at hres
        · rw [if_neg hcond2]
          exact ⟨rfl, rfl⟩

/-- C5 witness: on the reachable state `cBug2` (one-block piece, fully
hashed, not hashing) `try_hash_piece` completes immediately and writes the
SHA-1 of the single buffer into the job. -/
theorem C5_try_hash_piece_witness :
    (cBug2.try_hash_piece loc00 ⟨9, ⟨[]⟩, []⟩).1 = hash_result.job_completed ∧
      (cBug2.try_hash_piece loc00 ⟨9, ⟨[]⟩, []⟩).2.2.piece_hash = ⟨[[7]]⟩ := by
  have h := C5_try_hash_piece_trichotomy cBug2 loc00 ⟨9, ⟨[]⟩, []⟩
  constructor
  · exact h.1.mpr ⟨_, rfl, by decide, by decide⟩
  · rw [(h.2.2.1 _ rfl (by decide) (by decide)).1]
    decide

theorem findPiece_append_of_none {ps : List CachedPieceEntry} {loc : PieceLocation}
    {q : CachedPieceEntry} (h : findPiece ps loc = none) (hq : q.piece = loc) :
    findPiece (ps ++ [q]) loc = some q := by
  rw [findPiece, List.find?_append]
  rw [findPiece] at h
  rw [h]
  simp [List.find?_cons, hq]

theorem getD_set_self {l : List CachedBlockEntry} {i : Nat} {a : CachedBlockEntry}
    (h : i < l.length) : (l.set i a).getD i default = a := by
  induction l generalizing i with
  | nil => cases h
  | cons x t ih =>
    cases i with
    | zero => rfl
    | succ n => exact ih (Nat.lt_of_succ_lt_succ h)

theorem insertBase_find (c : DiskCache) (env : Nat → PreadStorage) (loc : PieceLocation) :
    findPiece (insertBase c env loc).2 loc = some (insertBase c env loc).1 ∧
      (insertBase c env loc).1.piece = loc := by
  rw [insertBase]
  cases hf : findPiece c.m_pieces loc with
  | some p => exact ⟨hf, findPiece_key hf⟩
  | none =>
    dsimp only
    exact ⟨findPiece_append_of_none hf rfl, rfl⟩

/-- C6: under the asserted preconditions, `insert` materialises the piece
if absent, stores the write job in the slot, increments `m_blocks` by one,
recomputes `ready_to_flush` over all blocks, and returns true iff
`block_idx = 0` or the piece is `ready_to_flush` after the insertion. -/
theorem C6_insert_spec (c : DiskCache) (env : Nat → PreadStorage) (loc : PieceLocation)
    (idx : Nat) (wj : WriteJob) (hpre : insertPrecond c env loc idx = true) :
    ∃ p', findPiece (c.insert env loc idx wj).2.m_pieces loc = some p' ∧
      p'.blocks = (insertBase c env loc).1.blocks.set idx
        { (insertBase c env loc).1.blocks.getD idx default with write_job := some wj } ∧
      (p'.blocks.getD idx default).write_job = some wj ∧
      (c.insert env loc idx wj).2.m_blocks = c.m_blocks + 1 ∧
      p'.ready_to_flush = compute_ready_to_flush p'.blocks ∧
      ((c.insert env loc idx wj).1 = true ↔ (idx = 0 ∨ p'.ready_to_flush = true)) := by
  have hlt : idx < (insertBase c env loc).1.blocks.length := by
    rw [insertPrecond] at hpre
    simp only [Bool.and_eq_true, decide_eq_true_eq] at hpre
    exact hpre.1.1.1.1.1
  have hbase := insertBase_find c env loc
  refine ⟨{ (insertBase c env loc).1 with
      blocks := (insertBase c env loc).1.blocks.set idx
        { (insertBase c env loc).1.blocks.getD idx default with write_job := some wj }
      ready_to_flush := compute_ready_to_flush ((insertBase c env loc).1.blocks.set idx
        { (insertBase c env loc).1.blocks.getD idx default with write_job := some wj }) },
    ?_, rfl, ?_, rfl, rfl, ?_⟩
  · exact findPiece_replace_self hbase.1 hbase.2
  · show (((insertBase c env loc).1.blocks.set idx
        { (insertBase c env loc).1.blocks.getD idx default with
          write_job := some wj }).getD idx default).write_job = some wj
    rw [getD_set_self hlt]
  · show (((idx == 0) || compute_ready_to_flush _ : Bool) = true ↔ _)
    simp only [Bool.or_eq_true, Nat.beq_eq_true_eq]
    rfl

/-- C6 witness: inserting block 0 of a fresh one-block piece into the
empty cache returns true (first block and the piece becomes ready) and
bumps `m_blocks` to 1. -/
theorem C6_insert_spec_witness :
    (DiskCache.insert {} env1 loc00 0 ⟨1, [7]⟩).1 = true ∧
      (DiskCache.insert {} env1 loc00 0 ⟨1, [7]⟩).2.m_blocks = 0 + 1 := by
  obtain ⟨p', hfind, hblocks, hslot, hm, hrtf, hret⟩ :=
    C6_insert_spec {} env1 loc00 0 ⟨1, [7]⟩ (by decide)
  exact ⟨hret.mpr (Or.inl rfl), hm⟩

theorem count_jobs_clear_blocks (p : CachedPieceEntry) :
    count_jobs (clear_piece_impl p).1.blocks = 0 := by
  rw [clear_piece_impl]
  dsimp only
  rw [count_jobs]
  refine List.countP_eq_zero.mpr ?_
  intro b hb
  rcases List.mem_map.mp hb with ⟨a, ha, rfl⟩
  simp

/-- C7: (a) on a present, flushing piece `try_clear_piece` parks the job in
`clear_piece` and returns false, changing nothing else; (b) on a present
piece that is neither flushing nor hashing it returns true, hands back
every live write job as the aborted queue, decrements `m_blocks` by their
number, and leaves the piece with all slots nulled, all holders reset,
`ready_to_flush`, `piece_hash_returned`, both cursors and the SHA-1 context
reset; (c) a flush pass over a piece with a parked clear job runs
`clear_piece_impl` and invokes the clear callback with the aborted jobs and
the parked job. -/
theorem C7_try_clear_piece_spec (c : DiskCache) (loc : PieceLocation) (j : Nat) :
    (∀ p, findPiece c.m_pieces loc = some p → p.flushing = true →
      c.try_clear_piece loc j =
        (false,
          { c with m_pieces := replacePiece c.m_pieces loc { p with clear_piece := some j } },
          [])) ∧
    (∀ p, findPiece c.m_pieces loc = some p → p.flushing = false → p.hashing = false →
      (c.try_clear_piece loc j).1 = true ∧
      (c.try_clear_piece loc j).2.2 = p.blocks.filterMap (fun b => b.write_job) ∧
      (c.try_clear_piece loc j).2.1.m_blocks =
        c.m_blocks - (p.blocks.filterMap (fun b => b.write_job)).length ∧
      findPiece (c.try_clear_piece loc j).2.1.m_pieces loc = some (clear_piece_impl p).1 ∧
      (∀ b ∈ (clear_piece_impl p).1.blocks, b.write_job = none ∧ b.buf_holder = none) ∧
      (clear_piece_impl p).1.ready_to_flush = false ∧
      (clear_piece_impl p).1.piece_hash_returned = false ∧
      (clear_piece_impl p).1.hasher_cursor = 0 ∧
      (clear_piece_impl p).1.flushed_cursor = 0 ∧
      (clear_piece_impl p).1.ph = {}) ∧
    (∀ (w : Writer) (p : CachedPieceEntry) (m : Int), p.clear_piece = some j →
      (phaseAPass w p m).cevs =
        [⟨(applyWriterUpdate p.hasher_cursor (w p.blocks (p.hasher_cursor : Int)).1 0
            p.blocks).filterMap (fun b => b.write_job), j⟩] ∧
      (phaseAPass w p m).piece.clear_piece = none ∧
      count_jobs (phaseAPass w p m).piece.blocks = 0 ∧
      (phaseAPass w p m).mblocks = m - (w p.blocks (p.hasher_cursor : Int)).2 -
        ((applyWriterUpdate p.hasher_cursor (w p.blocks (p.hasher_cursor : Int)).1 0
          p.blocks).filterMap (fun b => b.write_job)).length) := by
  refine ⟨?_, ?_, ?_⟩
  · intro p hf hfl
    rw [DiskCache.try_clear_piece, hf]
    dsimp only
    rw [if_pos hfl]
  · intro p hf hfl hh
    rw [DiskCache.try_clear_piece, hf]
    dsimp only
    rw [if_neg (by simp [hfl]), if_neg (by simp [hh])]
    have hkey0 : p.piece = loc := findPiece_key hf
    have hkey : (clear_piece_impl p).1.piece = loc := hkey0
    refine ⟨rfl, rfl, rfl, findPiece_replace_self hf hkey, ?_, rfl, rfl, rfl, rfl, rfl⟩
    intro b hb
    rcases List.mem_map.mp hb with ⟨a, ha, rfl⟩
    exact ⟨rfl, rfl⟩
  · intro w p m hcp
    rw [phaseAPass]
    dsimp only
    rw [runParkedClear]
    dsimp only
    rw [hcp]
    dsimp only
    refine ⟨rfl, rfl, ?_, rfl⟩
    exact count_jobs_clear_blocks _

/-- C7 witness: clearing the quiescent, fully flushed one-block piece of
`cRtf2` (not flushing, not hashing) completes immediately with no aborted
jobs. -/
theorem C7_try_clear_piece_witness :
    (cRtf2.try_clear_piece loc00 5).1 = true ∧
      (cRtf2.try_clear_piece loc00 5).2.2 = [] := by
  have h := C7_try_clear_piece_spec cRtf2 loc00 5
  have hx := h.2.1 _ rfl (by decide) (by decide)
  refine ⟨hx.1, ?_⟩
  rw [hx.2.1]
  decide

/-- C3 counterexample: the claim limits the span offered to the writer in
Phase B to `hasher_cursor - flushed_cursor` blocks and says no block at
index ≥ `hasher_cursor` is handed to the writer.  On the reachable state
`cSpan3` (three-block piece, `hasher_cursor = 2`, `flushed_cursor = 0`) the
single Phase B writer invocation receives a three-block span — including
the block at index 2 ≥ `hasher_cursor` — while the cursor argument is 2. -/
theorem C3_phaseB_span_counterexample :
    Reachable cSpan3 ∧
    (findPiece cSpan3.m_pieces loc00).map
        (fun p => (p.hasher_cursor, p.flushed_cursor, p.blocks.length)) = some (2, 0, 3) ∧
    cSpan4.evs.map (fun e => (e.phase, (e.span.length : Int), e.hash_arg))
      = [(FlushPhase.phaseB, 3, 2)] :=
  ⟨reach_cSpan3, by decide, by decide⟩

/-- C3 (amended): in Phase B the writer is handed the whole suffix
`blocks[flushed_cursor..]` (not truncated), with `hasher_cursor -
flushed_cursor` passed as the span-relative cursor argument and as the
requested count; afterwards — when no clear job is parked — every piece
field other than `blocks` and `flushed_cursor` is unchanged
(`ready_to_flush` in particular is not recomputed), the blocks are the kept
prefix plus the writer-updated suffix, and `flushed_cursor` is recomputed
from the updated suffix alone. -/
theorem C3_phaseB_span_amended (w : Writer) (p : CachedPieceEntry) (m : Int) :
    (phaseBPass w p m).ev.span = p.blocks.drop p.flushed_cursor ∧
    (phaseBPass w p m).ev.hash_arg = (p.hasher_cursor : Int) - (p.flushed_cursor : Int) ∧
    (phaseBPass w p m).ev.requested = (p.hasher_cursor : Int) - (p.flushed_cursor : Int) ∧
    (p.clear_piece = none →
      (phaseBPass w p m).piece.ready_to_flush = p.ready_to_flush ∧
      (phaseBPass w p m).piece.hasher_cursor = p.hasher_cursor ∧
      (phaseBPass w p m).piece.piece_hash_returned = p.piece_hash_returned ∧
      (phaseBPass w p m).piece.hashing = p.hashing ∧
      (phaseBPass w p m).piece.flushing = p.flushing ∧
      (phaseBPass w p m).piece.ph = p.ph ∧
      (phaseBPass w p m).piece.hash_job = p.hash_job ∧
      (phaseBPass w p m).piece.clear_piece = p.clear_piece ∧
      (phaseBPass w p m).piece.blocks = p.blocks.take p.flushed_cursor ++
        applyWriterUpdate p.hasher_cursor (w (p.blocks.drop p.flushed_cursor)
          ((p.hasher_cursor : Int) - (p.flushed_cursor : Int))).1 0
          (p.blocks.drop p.flushed_cursor) ∧
      (phaseBPass w p m).piece.flushed_cursor = compute_flushed_cursor
        (applyWriterUpdate p.hasher_cursor (w (p.blocks.drop p.flushed_cursor)
          ((p.hasher_cursor : Int) - (p.flushed_cursor : Int))).1 0
          (p.blocks.drop p.flushed_cursor))) := by
  refine ⟨rfl, rfl, rfl, ?_⟩
  intro hcp
  rw [phaseBPass]
  dsimp only
  rw [runParkedClear]
  dsimp only
  rw [hcp]
  dsimp only
  exact ⟨rfl, rfl, rfl, rfl, rfl, rfl, rfl, rfl, rfl, rfl⟩

/-- C3 witness: the amended per-pass description instantiated on the
concrete three-block piece of `cSpan3` with the full writer. -/
theorem C3_phaseB_span_amended_witness :
    (phaseBPass fullWriter pSpan3 2).ev.span = pSpan3.blocks.drop pSpan3.flushed_cursor ∧
      (phaseBPass fullWriter pSpan3 2).piece.ready_to_flush = pSpan3.ready_to_flush := by
  have h := C3_phaseB_span_amended fullWriter pSpan3 2
  exact ⟨h.1, (h.2.2.2 (by decide)).1⟩

theorem findPiece_replace_of_ne {ps : List CachedPieceEntry} {loc loc' : PieceLocation}
    {q : CachedPieceEntry} (hq : q.piece = loc') (hne : loc' ≠ loc) :
    findPiece (replacePiece ps loc' q) loc = findPiece ps loc := by
  induction ps with
  | nil => rfl
  | cons a t ih =>
    rw [replacePiece]
    by_cases hc : (a.piece == loc') = true
    · rw [if_pos hc]
      have ha : a.piece = loc' := by simpa using hc
      have h1 : List.find? (fun x => x.piece == loc) (q :: t)
          = List.find? (fun x => x.piece == loc) t :=
        List.find?_cons_of_neg _ (by simp [hq, hne])
      have h2 : List.find? (fun x => x.piece == loc) (a :: t)
          = List.find? (fun x => x.piece == loc) t :=
        List.find?_cons_of_neg _ (by simp [ha, hne])
      rw [findPiece, findPiece, h1, h2]
    · rw [if_neg hc]
      by_cases hd : (a.piece == loc) = true
      · have h1 : List.find? (fun x => x.piece == loc) (a :: replacePiece t loc' q)
            = some a := List.find?_cons_of_pos _ hd
        have h2 : List.find? (fun x => x.piece == loc) (a :: t) = some a :=
          List.find?_cons_of_pos _ hd
        rw [findPiece, findPiece, h1, h2]
      · have h1 : List.find? (fun x => x.piece == loc) (a :: replacePiece t loc' q)
            = List.find? (fun x => x.piece == loc) (replacePiece t loc' q) :=
          List.find?_cons_of_neg _ hd
        have h2 : List.find? (fun x => x.piece == loc) (a :: t)
            = List.find? (fun x => x.piece == loc) t :=
          List.find?_cons_of_neg _ hd
        rw [findPiece, findPiece, h1, h2]
        exact ih

theorem findPiece_erase_of_ne {ps : List CachedPieceEntry} {loc loc' : PieceLocation}
    (hne : loc' ≠ loc) :
    findPiece (erasePiece ps loc') loc = findPiece ps loc := by
  induction ps with
  | nil => rfl
  | cons a t ih =>
    rw [erasePiece]
    by_cases hc : (a.piece == loc') = true
    · rw [if_pos hc]
      have ha : a.piece = loc' := by simpa using hc
      have h2 : List.find? (fun x => x.piece == loc) (a :: t)
          = List.find? (fun x => x.piece == loc) t :=
        List.find?_cons_of_neg _ (by simp [ha, hne])
      rw [findPiece, findPiece, h2]
    · rw [if_neg hc]
      by_cases hd : (a.piece == loc) = true
      · have h1 : List.find? (fun x => x.piece == loc) (a :: erasePiece t loc')
            = some a := List.find?_cons_of_pos _ hd
        have h2 : List.find? (fun x => x.piece == loc) (a :: t) = some a :=
          List.find?_cons_of_pos _ hd
        rw [findPiece, findPiece, h1, h2]
      · have h1 : List.find? (fun x => x.piece == loc) (a :: erasePiece t loc')
            = List.find? (fun x => x.piece == loc) (erasePiece t loc') :=
          List.find?_cons_of_neg _ hd
        have h2 : List.find? (fun x => x.piece == loc) (a :: t)
            = List.find? (fun x => x.piece == loc) t :=
          List.find?_cons_of_neg _ hd
        rw [findPiece, findPiece, h1, h2]
        exact ih

theorem findPiece_eq_none_of_not_mem {ps : List CachedPieceEntry} {loc : PieceLocation}
    (h : loc ∉ ps.map (fun x => x.piece)) : findPiece ps loc = none := by
  induction ps with
  | nil => rfl
  | cons a t ih =>
    have ha : ¬(a.piece == loc) = true := by
      intro he
      exact h (by simp [(beq_iff_eq).mp he])
    have h2 : List.find? (fun x => x.piece == loc) (a :: t)
        = List.find? (fun x => x.piece == loc) t :=
      List.find?_cons_of_neg _ ha
    rw [findPiece, h2]
    exact ih (fun hm => h (by rw [List.map_cons]; exact List.mem_cons_of_mem _ hm))

theorem findPiece_mem_self {ps : List CachedPieceEntry} {p : CachedPieceEntry}
    (hnd : (ps.map (fun x => x.piece)).Nodup) (hp : p ∈ ps) :
    findPiece ps p.piece = some p := by
  induction ps with
  | nil => cases hp
  | cons a t ih =>
    rw [List.map_cons] at hnd
    rcases List.nodup_cons.mp hnd with ⟨hna, hnt⟩
    rcases List.mem_cons.mp hp with rfl | hmem
    · have h1 : List.find? (fun x => x.piece == p.piece) (p :: t) = some p :=
        List.find?_cons_of_pos _ (by simp)
      rw [findPiece, h1]
    · have hne : ¬(a.piece == p.piece) = true := by
        intro he
        exact hna ((beq_iff_eq).mp he ▸ List.mem_map_of_mem _ hmem)
      have h1 : List.find? (fun x => x.piece == p.piece) (a :: t)
          = List.find? (fun x => x.piece == p.piece) t :=
        List.find?_cons_of_neg _ hne
      rw [findPiece, h1]
      exact ih hnt hmem

theorem erasePiece_sublist (ps : List CachedPieceEntry) (loc : PieceLocation) :
    (erasePiece ps loc).Sublist ps := by
  induction ps with
  | nil => exact List.Sublist.refl _
  | cons a t ih =>
    rw [erasePiece]
    split
    · exact (List.Sublist.refl t).cons a
    · exact ih.cons₂ a

theorem nodup_keys_replace {ps : List CachedPieceEntry} {loc : PieceLocation}
    {q : CachedPieceEntry} (hq : q.piece = loc)
    (hnd : (ps.map (fun x => x.piece)).Nodup) :
    ((replacePiece ps loc q).map (fun x => x.piece)).Nodup := by
  induction ps with
  | nil => exact hnd
  | cons a t ih =>
    rw [replacePiece]
    rw [List.map_cons] at hnd
    rcases List.nodup_cons.mp hnd with ⟨hna, hnt⟩
    by_cases hc : (a.piece == loc) = true
    · rw [if_pos hc]
      have ha : a.piece = loc := by simpa using hc
      rw [List.map_cons, hq]
      exact List.nodup_cons.mpr ⟨ha ▸ hna, hnt⟩
    · rw [if_neg hc]
      rw [List.map_cons]
      refine List.nodup_cons.mpr ⟨?_, ih hnt⟩
      intro hmem
      rcases List.mem_map.mp hmem with ⟨y, hy, hkey⟩
      rcases mem_replacePiece hy with hyt | rfl
      · exact hna (hkey ▸ List.mem_map_of_mem _ hyt)
      · exact hc (by simp [hkey.symm.trans hq])

theorem nodup_keys_erase {ps : List CachedPieceEntry} {loc : PieceLocation}
    (hnd : (ps.map (fun x => x.piece)).Nodup) :
    ((erasePiece ps loc).map (fun x => x.piece)).Nodup :=
  hnd.sublist ((erasePiece_sublist ps loc).map _)

theorem findPiece_erase_replace_self {ps : List CachedPieceEntry} {loc : PieceLocation}
    {p q : CachedPieceEntry} (hnd : (ps.map (fun x => x.piece)).Nodup)
    (h : findPiece ps loc = some p) (hq : q.piece = loc) :
    findPiece (erasePiece (replacePiece ps loc q) loc) loc = none := by
  induction ps with
  | nil => cases h
  | cons a t ih =>
    rw [List.map_cons] at hnd
    rcases List.nodup_cons.mp hnd with ⟨hna, hnt⟩
    rw [replacePiece]
    by_cases hc : (a.piece == loc) = true
    · rw [if_pos hc]
      rw [erasePiece, if_pos (by simp [hq])]
      have ha : a.piece = loc := by simpa using hc
      apply findPiece_eq_none_of_not_mem
      intro hm
      exact hna (ha ▸ hm)
    · rw [if_neg hc]
      rw [erasePiece, if_neg hc]
      have h1 : List.find? (fun x => x.piece == loc)
          (a :: erasePiece (replacePiece t loc q) loc)
          = List.find? (fun x => x.piece == loc) (erasePiece (replacePiece t loc q) loc) :=
        List.find?_cons_of_neg _ hc
      have h2 : List.find? (fun x => x.piece == loc) (a :: t)
          = List.find? (fun x => x.piece == loc) t :=
        List.find?_cons_of_neg _ hc
      rw [findPiece, h1]
      rw [findPiece, h2] at h
      exact ih hnt h

theorem mem_sortedInsertNat {n : Nat} :
    ∀ {l : List Nat} {x : Nat}, x ∈ sortedInsertNat n l ↔ x = n ∨ x ∈ l := by
  intro l
  induction l with
  | nil =>
    intro x
    rw [sortedInsertNat]
    simp
  | cons m t ih =>
    intro x
    rw [sortedInsertNat]
    split
    · exact List.mem_cons
    · rw [List.mem_cons, ih, List.mem_cons]
      tauto

theorem mem_sortNatAsc : ∀ {l : List Nat} {x : Nat}, x ∈ sortNatAsc l ↔ x ∈ l := by
  intro l
  induction l with
  | nil => intro x; exact Iff.rfl
  | cons n t ih =>
    intro x
    rw [sortNatAsc, mem_sortedInsertNat, ih, List.mem_cons]

theorem runParkedClear_piece_key (p : CachedPieceEntry) (m : Int) :
    (runParkedClear p m).1.piece = p.piece := by
  rw [runParkedClear]
  cases p.clear_piece with
  | none => rfl
  | some j => rfl

theorem phaseCPass_piece_key (w : Writer) (ph : FlushPhase) (p : CachedPieceEntry)
    (m : Int) : (phaseCPass w ph p m).piece.piece = p.piece := by
  rw [phaseCPass]
  dsimp only
  rw [runParkedClear_piece_key]

theorem flushStorageLoop_preserves_none (w : Writer) (sid : Nat) :
    ∀ (l : List Nat) (c : DiskCache) (loc' : PieceLocation),
      findPiece c.m_pieces loc' = none →
      findPiece (flushStorageLoop w sid l c).cache.m_pieces loc' = none := by
  intro l
  induction l with
  | nil => intro c loc' h; exact h
  | cons pi rest ih =>
    intro c loc' hnone
    rw [flushStorageLoop]
    dsimp only
    cases hf : findPiece c.m_pieces ⟨sid, pi⟩ with
    | none =>
      dsimp only
      exact ih c loc' hnone
    | some p =>
      dsimp only
      split
      · exact ih c loc' hnone
      · split
        · exact ih c loc' hnone
        · by_cases he : (⟨sid, pi⟩ : PieceLocation) = loc'
          · rw [he] at hf
            rw [hf] at hnone
            cases hnone
          · have hq0 : p.piece = (⟨sid, pi⟩ : PieceLocation) := findPiece_key hf
            have hq : (phaseCPass w .storagePhase p c.m_blocks).piece.piece
                = (⟨sid, pi⟩ : PieceLocation) :=
              (phaseCPass_piece_key w .storagePhase p c.m_blocks).trans hq0
            apply ih
            show findPiece (erasePiece (replacePiece c.m_pieces ⟨sid, pi⟩
              (phaseCPass w .storagePhase p c.m_blocks).piece) ⟨sid, pi⟩) loc' = none
            rw [findPiece_erase_of_ne he, findPiece_replace_of_ne hq he]
            exact hnone

theorem flushStorageLoop_erases (w : Writer) (sid : Nat) :
    ∀ (l : List Nat) (c : DiskCache) (pi : Nat) (p : CachedPieceEntry),
      (c.m_pieces.map (fun x => x.piece)).Nodup →
      pi ∈ l → findPiece c.m_pieces ⟨sid, pi⟩ = some p →
      p.flushing = false → 0 < count_jobs p.blocks →
      findPiece (flushStorageLoop w sid l c).cache.m_pieces ⟨sid, pi⟩ = none := by
  intro l
  induction l with
  | nil => intro c pi p _ hmem; cases hmem
  | cons q rest ih =>
    intro c pi p hnd hmem hf hfl hjobs
    rw [flushStorageLoop]
    dsimp only
    by_cases hqpi : q = pi
    · subst hqpi
      rw [hf]
      dsimp only
      rw [if_neg (by simp [hfl]), if_neg (by simp only [beq_iff_eq]; omega)]
      have hq0 : p.piece = (⟨sid, q⟩ : PieceLocation) := findPiece_key hf
      have hq : (phaseCPass w .storagePhase p c.m_blocks).piece.piece
          = (⟨sid, q⟩ : PieceLocation) :=
        (phaseCPass_piece_key w .storagePhase p c.m_blocks).trans hq0
      apply flushStorageLoop_preserves_none w sid rest
      show findPiece (erasePiece (replacePiece c.m_pieces ⟨sid, q⟩
        (phaseCPass w .storagePhase p c.m_blocks).piece) ⟨sid, q⟩) ⟨sid, q⟩ = none
      exact findPiece_erase_replace_self hnd hf hq
    · have hmem' : pi ∈ rest := by
        rcases List.mem_cons.mp hmem with h1 | h2
        · exact absurd h1.symm hqpi
        · exact h2
      cases hf2 : findPiece c.m_pieces ⟨sid, q⟩ with
      | none =>
        dsimp only
        exact ih c pi p hnd hmem' hf hfl hjobs
      | some p2 =>
        dsimp only
        split
        · exact ih c pi p hnd hmem' hf hfl hjobs
        · split
          · exact ih c pi p hnd hmem' hf hfl hjobs
          · have hne : (⟨sid, q⟩ : PieceLocation) ≠ ⟨sid, pi⟩ := by
              intro he
              cases he
              exact hqpi rfl
            have hq0 : p2.piece = (⟨sid, q⟩ : PieceLocation) := findPiece_key hf2
            have hq2 : (phaseCPass w .storagePhase p2 c.m_blocks).piece.piece
                = (⟨sid, q⟩ : PieceLocation) :=
              (phaseCPass_piece_key w .storagePhase p2 c.m_blocks).trans hq0
            have hnd' : ((erasePiece (replacePiece c.m_pieces ⟨sid, q⟩
                (phaseCPass w .storagePhase p2 c.m_blocks).piece) ⟨sid, q⟩).map
                  (fun x => x.piece)).Nodup :=
              nodup_keys_erase (nodup_keys_replace hq2 hnd)
            have hf' : findPiece (erasePiece (replacePiece c.m_pieces ⟨sid, q⟩
                (phaseCPass w .storagePhase p2 c.m_blocks).piece) ⟨sid, q⟩) ⟨sid, pi⟩
                = some p := by
              rw [findPiece_erase_of_ne hne, findPiece_replace_of_ne hq2 hne]
              exact hf
            exact ih _ pi p hnd' hmem' hf' hfl hjobs

/-- C8 counterexample: the claim says every piece of the storage present
at call start is gone afterwards.  On the reachable state `cRtf2` the
(non-flushing) piece of storage 0 at `loc00` has no live write jobs, so
`flush_storage` skips it (`count_jobs == 0` continue, line 932) and it is
still present after the call. -/
theorem C8_flush_storage_counterexample :
    Reachable cRtf2 ∧
    (findPiece cRtf2.m_pieces loc00).map
        (fun p => (p.piece.torrent, p.flushing, count_jobs p.blocks)) = some (0, false, 0) ∧
    (findPiece cStorRun.cache.m_pieces loc00).isSome = true :=
  ⟨reach_cRtf2, by decide, by decide⟩

/-- C8 (amended): `flush_storage(writer, storage_id, clear_cb)` erases
every piece of the storage that is neither `flushing` nor free of live
write jobs when the call starts; pieces with `count_jobs = 0` or currently
flushing are skipped and remain in the container. -/
theorem C8_flush_storage_amended (c : DiskCache) (w : Writer) (sid : Nat)
    (hkeys : uniqueKeys c) :
    ∀ p ∈ c.m_pieces, p.piece.torrent = sid → p.flushing = false →
      0 < count_jobs p.blocks →
      findPiece (c.flush_storage w sid).cache.m_pieces p.piece = none := by
  intro p hp ht hfl hjobs
  rw [DiskCache.flush_storage]
  have hloc : (⟨sid, p.piece.piece⟩ : PieceLocation) = p.piece := by
    rw [← ht]
  have hmem : p.piece.piece ∈ sortNatAsc
      ((c.m_pieces.filter (fun x => x.piece.torrent == sid)).map (fun x => x.piece.piece)) := by
    rw [mem_sortNatAsc]
    exact List.mem_map_of_mem _ (List.mem_filter.mpr ⟨hp, by simp [ht]⟩)
  have hf : findPiece c.m_pieces ⟨sid, p.piece.piece⟩ = some p := by
    rw [hloc]
    exact findPiece_mem_self hkeys hp
  have hgone := flushStorageLoop_erases w sid _ c p.piece.piece p hkeys hmem hf hfl hjobs
  rw [← hloc]
  exact hgone

/-- C8 witness: the amended statement instantiated on the reachable state
`cSpan3`, whose three-block piece holds two live write jobs and is erased
by `flush_storage` over storage 0. -/
theorem C8_flush_storage_amended_witness :
    findPiece (cSpan3.flush_storage fullWriter 0).cache.m_pieces pSpan3.piece = none := by
  have h := C8_flush_storage_amended cSpan3 fullWriter 0
    (by show (cSpan3.m_pieces.map (fun p => p.piece)).Nodup; decide)
  exact h pSpan3 (by decide) (by decide) (by decide) (by decide)

theorem runParkedClear_piece_m (p : CachedPieceEntry) (m m' : Int) :
    (runParkedClear p m).1 = (runParkedClear p m').1 := by
  rw [runParkedClear, runParkedClear]
  cases p.clear_piece with
  | none => rfl
  | some j => rfl

theorem phaseAPass_piece_key (w : Writer) (p : CachedPieceEntry) (m : Int) :
    (phaseAPass w p m).piece.piece = p.piece := by
  rw [phaseAPass]
  dsimp only
  rw [runParkedClear_piece_key]

theorem phaseBPass_piece_key (w : Writer) (p : CachedPieceEntry) (m : Int) :
    (phaseBPass w p m).piece.piece = p.piece := by
  rw [phaseBPass]
  dsimp only
  rw [runParkedClear_piece_key]

theorem phaseAPass_piece_eq (w : Writer) (p : CachedPieceEntry) (m : Int) :
    (phaseAPass w p m).piece = phaseAPassPiece w p := by
  rw [phaseAPassPiece, phaseAPass, phaseAPass]
  dsimp only
  exact runParkedClear_piece_m _ _ _

theorem shortOnlyLast_nil : shortOnlyLast [] := by
  intro pre x post heq hpost
  cases pre <;> simp at heq

theorem shortOnlyLast_single (ev : FlushEvent) : shortOnlyLast [ev] := by
  intro pre x post heq hpost
  cases pre with
  | nil =>
    simp only [List.nil_append] at heq
    injection heq with h1 h2
    exact absurd h2.symm hpost
  | cons b pre' =>
    injection heq with h1 h2
    cases pre' <;> simp at h2

theorem shortOnlyLast_append {l1 l2 : List FlushEvent} (h1 : allPaid l1)
    (h2 : shortOnlyLast l2) : shortOnlyLast (l1 ++ l2) := by
  induction l1 with
  | nil => exact h2
  | cons a t ih =>
    intro pre x post heq hpost
    cases pre with
    | nil =>
      simp only [List.nil_append] at heq
      injection heq with hax htail
      exact hax ▸ h1 a (List.mem_cons_self a t)
    | cons b pre' =>
      injection heq with hab htail
      exact ih (fun ev hev => h1 ev (List.mem_cons_of_mem a hev)) pre' x post htail hpost

theorem allPaid_nil : allPaid [] := fun ev hev => by cases hev

theorem shortOnlyLast_cons {ev : FlushEvent} {evs : List FlushEvent}
    (h : ¬(ev.count < ev.requested)) (h2 : shortOnlyLast evs) :
    shortOnlyLast (ev :: evs) :=
  @shortOnlyLast_append [ev] evs
    (fun x hx => (List.mem_singleton.mp hx) ▸ h) h2

theorem phaseALoop_shortOnlyLast (w : Writer) :
    ∀ (l : List CachedPieceEntry) (c : DiskCache),
      shortOnlyLast (phaseALoop w l c).evs ∧
      ((phaseALoop w l c).stop = false → allPaid (phaseALoop w l c).evs) := by
  intro l
  induction l with
  | nil => intro c; exact ⟨shortOnlyLast_nil, fun _ => allPaid_nil⟩
  | cons p rest ih =>
    intro c
    rw [phaseALoop]
    dsimp only
    split
    · exact ih c
    · split
      · next hshort =>
        refine ⟨shortOnlyLast_single _, ?_⟩
        intro hstop
        exact Bool.noConfusion hstop
      · next hnshort =>
        refine ⟨shortOnlyLast_cons hnshort (ih _).1, ?_⟩
        intro hstop ev hev
        rcases List.mem_cons.mp hev with rfl | hmem
        · exact hnshort
        · exact (ih _).2 hstop ev hmem

theorem phaseBLoop_shortOnlyLast (w : Writer) (t : Int) :
    ∀ (l : List CachedPieceEntry) (c : DiskCache),
      shortOnlyLast (phaseBLoop w t l c).evs ∧
      ((phaseBLoop w t l c).stop = false → allPaid (phaseBLoop w t l c).evs) := by
  intro l
  induction l with
  | nil => intro c; exact ⟨shortOnlyLast_nil, fun _ => allPaid_nil⟩
  | cons p rest ih =>
    intro c
    rw [phaseBLoop]
    dsimp only
    split
    · exact ⟨shortOnlyLast_nil, fun _ => allPaid_nil⟩
    · split
      · exact ih c
      · split
        · exact ⟨shortOnlyLast_nil, fun _ => allPaid_nil⟩
        · split
          · next hshort =>
            refine ⟨shortOnlyLast_single _, ?_⟩
            intro hstop
            exact Bool.noConfusion hstop
          · next hnshort =>
            refine ⟨shortOnlyLast_cons hnshort (ih _).1, ?_⟩
            intro hstop ev hev
            rcases List.mem_cons.mp hev with rfl | hmem
            · exact hnshort
            · exact (ih _).2 hstop ev hmem

theorem phaseCLoop_shortOnlyLast (w : Writer) (t : Int) :
    ∀ (l : List CachedPieceEntry) (c : DiskCache),
      shortOnlyLast (phaseCLoop w t l c).evs ∧
      ((phaseCLoop w t l c).stop = false → allPaid (phaseCLoop w t l c).evs) := by
  intro l
  induction l with
  | nil => intro c; exact ⟨shortOnlyLast_nil, fun _ => allPaid_nil⟩
  | cons p rest ih =>
    intro c
    rw [phaseCLoop]
    dsimp only
    split
    · exact ⟨shortOnlyLast_nil, fun _ => allPaid_nil⟩
    · split
      · exact ih c
      · split
        · exact ih c
        · split
          · next hshort =>
            refine ⟨shortOnlyLast_single _, ?_⟩
            intro hstop
            exact Bool.noConfusion hstop
          · next hnshort =>
            refine ⟨shortOnlyLast_cons hnshort (ih _).1, ?_⟩
            intro hstop ev hev
            rcases List.mem_cons.mp hev with rfl | hmem
            · exact hnshort
            · exact (ih _).2 hstop ev hmem

theorem flushToDisk_shortOnlyLast (c : DiskCache) (w : Writer) (t : Int) :
    shortOnlyLast (c.flush_to_disk w t).evs := by
  rw [DiskCache.flush_to_disk]
  dsimp only
  split
  · exact (phaseALoop_shortOnlyLast w _ c).1
  · next hastop =>
    have hA := (phaseALoop_shortOnlyLast w _ c).2 (Bool.eq_false_iff.mpr hastop)
    split
    · exact shortOnlyLast_append hA (phaseBLoop_shortOnlyLast w t _ _).1
    · next hbstop =>
      have hB := (phaseBLoop_shortOnlyLast w t _ _).2 (Bool.eq_false_iff.mpr hbstop)
      rw [List.append_assoc]
      exact shortOnlyLast_append hA
        (shortOnlyLast_append hB (phaseCLoop_shortOnlyLast w t _ _).1)

theorem phaseALoop_evs_phase (w : Writer) :
    ∀ (l : List CachedPieceEntry) (c : DiskCache),
      ∀ ev ∈ (phaseALoop w l c).evs, ev.phase = FlushPhase.phaseA := by
  intro l
  induction l with
  | nil => intro c ev hev; cases hev
  | cons p rest ih =>
    intro c
    rw [phaseALoop]
    dsimp only
    split
    · exact ih c
    · split
      · intro ev hev
        rcases List.mem_singleton.mp hev with rfl
        rfl
      · intro ev hev
        rcases List.mem_cons.mp hev with rfl | hmem
        · rfl
        · exact ih _ ev hmem

theorem phaseBLoop_evs_phase (w : Writer) (t : Int) :
    ∀ (l : List CachedPieceEntry) (c : DiskCache),
      ∀ ev ∈ (phaseBLoop w t l c).evs, ev.phase = FlushPhase.phaseB := by
  intro l
  induction l with
  | nil => intro c ev hev; cases hev
  | cons p rest ih =>
    intro c
    rw [phaseBLoop]
    dsimp only
    split
    · intro ev hev; cases hev
    · split
      · exact ih c
      · split
        · intro ev hev; cases hev
        · split
          · intro ev hev
            rcases List.mem_singleton.mp hev with rfl
            rfl
          · intro ev hev
            rcases List.mem_cons.mp hev with rfl | hmem
            · rfl
            · exact ih _ ev hmem

theorem phaseCLoop_evs_phase (w : Writer) (t : Int) :
    ∀ (l : List CachedPieceEntry) (c : DiskCache),
      ∀ ev ∈ (phaseCLoop w t l c).evs, ev.phase = FlushPhase.phaseC := by
  intro l
  induction l with
  | nil => intro c ev hev; cases hev
  | cons p rest ih =>
    intro c
    rw [phaseCLoop]
    dsimp only
    split
    · intro ev hev; cases hev
    · split
      · exact ih c
      · split
        · exact ih c
        · split
          · intro ev hev
            rcases List.mem_singleton.mp hev with rfl
            rfl
          · intro ev hev
            rcases List.mem_cons.mp hev with rfl | hmem
            · rfl
            · exact ih _ ev hmem

theorem flushToDisk_eventsA (c : DiskCache) (w : Writer) (t : Int) :
    eventsOfPhase .phaseA (c.flush_to_disk w t).evs =
      (phaseALoop w (c.m_pieces.filter (fun p => p.ready_to_flush)) c).evs := by
  have hAid : eventsOfPhase .phaseA
      (phaseALoop w (c.m_pieces.filter (fun p => p.ready_to_flush)) c).evs =
      (phaseALoop w (c.m_pieces.filter (fun p => p.ready_to_flush)) c).evs := by
    rw [eventsOfPhase]
    refine List.filter_eq_self.mpr ?_
    intro ev hev
    simp [phaseALoop_evs_phase w _ c ev hev]
  rw [DiskCache.flush_to_disk]
  dsimp only
  split
  · exact hAid
  · split
    · rw [eventsOfPhase, List.filter_append, ← eventsOfPhase, ← eventsOfPhase, hAid]
      have hB : eventsOfPhase .phaseA (phaseBLoop w t
          (sortPiecesBy cheapDesc
            (phaseALoop w (c.m_pieces.filter (fun p => p.ready_to_flush)) c).cache.m_pieces)
          (phaseALoop w (c.m_pieces.filter (fun p => p.ready_to_flush)) c).cache).evs = [] := by
        rw [eventsOfPhase]
        refine List.filter_eq_nil_iff.mpr ?_
        intro ev hev
        simp [phaseBLoop_evs_phase w t _ _ ev hev]
      rw [hB, List.append_nil]
    · rw [List.append_assoc, eventsOfPhase, List.filter_append, ← eventsOfPhase,
        ← eventsOfPhase, hAid]
      have hB : eventsOfPhase .phaseA (phaseBLoop w t
          (sortPiecesBy cheapDesc
            (phaseALoop w (c.m_pieces.filter (fun p => p.ready_to_flush)) c).cache.m_pieces)
          (phaseALoop w (c.m_pieces.filter (fun p => p.ready_to_flush)) c).cache).evs = [] := by
        rw [eventsOfPhase]
        refine List.filter_eq_nil_iff.mpr ?_
        intro ev hev
        simp [phaseBLoop_evs_phase w t _ _ ev hev]
      have hC : ∀ (l2 : List CachedPieceEntry) (c2 : DiskCache),
          eventsOfPhase .phaseA (phaseCLoop w t l2 c2).evs = [] := by
        intro l2 c2
        rw [eventsOfPhase]
        refine List.filter_eq_nil_iff.mpr ?_
        intro ev hev
        simp [phaseCLoop_evs_phase w t l2 c2 ev hev]
      rw [eventsOfPhase, List.filter_append, ← eventsOfPhase, ← eventsOfPhase, hB, hC,
        List.append_nil, List.append_nil]

theorem replacePiece_of_find_none {ps : List CachedPieceEntry} {loc : PieceLocation}
    {q : CachedPieceEntry} (h : findPiece ps loc = none) : replacePiece ps loc q = ps := by
  induction ps with
  | nil => rfl
  | cons a t ih =>
    rw [findPiece] at h
    by_cases hc : (a.piece == loc) = true
    · have h1 : List.find? (fun x => x.piece == loc) (a :: t) = some a :=
        List.find?_cons_of_pos _ hc
      rw [h1] at h
      cases h
    · have h1 : List.find? (fun x => x.piece == loc) (a :: t)
          = List.find? (fun x => x.piece == loc) t := List.find?_cons_of_neg _ hc
      rw [h1] at h
      rw [replacePiece, if_neg hc, ih h]

theorem findPiece_replace_none_iff {ps : List CachedPieceEntry} {loc' loc : PieceLocation}
    {q : CachedPieceEntry} (hq : q.piece = loc') :
    (findPiece (replacePiece ps loc' q) loc = none ↔ findPiece ps loc = none) := by
  by_cases he : loc' = loc
  · subst he
    cases hf : findPiece ps loc' with
    | none => rw [replacePiece_of_find_none hf, hf]
    | some p =>
      rw [findPiece_replace_self hf hq]
      simp
  · rw [findPiece_replace_of_ne hq he]

theorem findPiece_erase_self_nodup {ps : List CachedPieceEntry} {loc : PieceLocation}
    (hnd : (ps.map (fun x => x.piece)).Nodup) :
    findPiece (erasePiece ps loc) loc = none := by
  induction ps with
  | nil => rfl
  | cons a t ih =>
    rw [List.map_cons] at hnd
    rcases List.nodup_cons.mp hnd with ⟨hna, hnt⟩
    rw [erasePiece]
    by_cases hc : (a.piece == loc) = true
    · rw [if_pos hc]
      have ha : a.piece = loc := by simpa using hc
      exact findPiece_eq_none_of_not_mem (fun hm => hna (ha ▸ hm))
    · rw [if_neg hc]
      have h1 : List.find? (fun x => x.piece == loc) (a :: erasePiece t loc)
          = List.find? (fun x => x.piece == loc) (erasePiece t loc) :=
        List.find?_cons_of_neg _ hc
      rw [findPiece, h1]
      exact ih hnt

theorem phaseALoop_find_pres (w : Writer) :
    ∀ (l : List CachedPieceEntry) (c : DiskCache) (loc : PieceLocation),
      (∀ x ∈ l, x.piece ≠ loc) →
      findPiece (phaseALoop w l c).cache.m_pieces loc = findPiece c.m_pieces loc := by
  intro l
  induction l with
  | nil => intro c loc _; rfl
  | cons p rest ih =>
    intro c loc hne
    rw [phaseALoop]
    dsimp only
    split
    · exact ih c loc (fun x hx => hne x (List.mem_cons_of_mem p hx))
    · have hpne : p.piece ≠ loc := hne p (List.mem_cons_self p rest)
      have hq : (phaseAPass w p c.m_blocks).piece.piece = p.piece :=
        phaseAPass_piece_key w p c.m_blocks
      have hfind : findPiece
          (if (phaseAPass w p c.m_blocks).piece.piece_hash_returned = true
            then erasePiece c.m_pieces p.piece
            else replacePiece c.m_pieces p.piece (phaseAPass w p c.m_blocks).piece) loc
          = findPiece c.m_pieces loc := by
        split
        · exact findPiece_erase_of_ne hpne
        · exact findPiece_replace_of_ne hq hpne
      split
      · exact hfind
      · rw [ih _ loc (fun x hx => hne x (List.mem_cons_of_mem p hx))]
        exact hfind

theorem phaseALoop_visits (w : Writer) (hw : FullCountWriter w) :
    ∀ (l : List CachedPieceEntry) (c : DiskCache) (p : CachedPieceEntry),
      p ∈ l → p.flushing = false →
      ∃ ev ∈ (phaseALoop w l c).evs, ev.phase = FlushPhase.phaseA ∧ ev.loc = p.piece := by
  intro l
  induction l with
  | nil => intro c p hp; cases hp
  | cons q rest ih =>
    intro c p hp hfl
    rw [phaseALoop]
    dsimp only
    rcases List.mem_cons.mp hp with rfl | hmem
    · rw [if_neg (by simp [hfl])]
      have hnoshort : ¬((phaseAPass w p c.m_blocks).ev.count
          < (phaseAPass w p c.m_blocks).ev.requested) := by
        show ¬((w p.blocks (p.hasher_cursor : Int)).2 < (p.blocks.length : Int))
        rw [hw p.blocks (p.hasher_cursor : Int)]
        exact lt_irrefl _
      rw [if_neg hnoshort]
      exact ⟨(phaseAPass w p c.m_blocks).ev, List.mem_cons_self _ _, rfl, rfl⟩
    · by_cases hqfl : q.flushing = true
      · rw [if_pos hqfl]
        exact ih c p hmem hfl
      · rw [if_neg hqfl]
        have hnoshort : ¬((phaseAPass w q c.m_blocks).ev.count
            < (phaseAPass w q c.m_blocks).ev.requested) := by
          show ¬((w q.blocks (q.hasher_cursor : Int)).2 < (q.blocks.length : Int))
          rw [hw q.blocks (q.hasher_cursor : Int)]
          exact lt_irrefl _
        rw [if_neg hnoshort]
        rcases ih _ p hmem hfl with ⟨ev, hev, hph, hloc⟩
        exact ⟨ev, List.mem_cons_of_mem _ hev, hph, hloc⟩

theorem phaseALoop_find_iff (w : Writer) (hw : FullCountWriter w) :
    ∀ (l : List CachedPieceEntry) (c : DiskCache) (p : CachedPieceEntry),
      (c.m_pieces.map (fun x => x.piece)).Nodup →
      (l.map (fun x => x.piece)).Nodup →
      p ∈ l → p.flushing = false →
      findPiece c.m_pieces p.piece = some p →
      (findPiece (phaseALoop w l c).cache.m_pieces p.piece = none ↔
        (phaseAPassPiece w p).piece_hash_returned = true) := by
  intro l
  induction l with
  | nil => intro c p _ _ hmem; cases hmem
  | cons q rest ih =>
    intro c p hndc hndl hmem hfl hfind
    rw [List.map_cons] at hndl
    rcases List.nodup_cons.mp hndl with ⟨hnq, hndl'⟩
    rw [phaseALoop]
    dsimp only
    rcases List.mem_cons.mp hmem with rfl | hmem'
    · rw [if_neg (by simp [hfl])]
      have hnoshort : ¬((phaseAPass w p c.m_blocks).ev.count
          < (phaseAPass w p c.m_blocks).ev.requested) := by
        show ¬((w p.blocks (p.hasher_cursor : Int)).2 < (p.blocks.length : Int))
        rw [hw p.blocks (p.hasher_cursor : Int)]
        exact lt_irrefl _
      rw [if_neg hnoshort]
      have hrest : ∀ x ∈ rest, x.piece ≠ p.piece := by
        intro x hx he
        exact hnq (he ▸ List.mem_map_of_mem _ hx)
      rw [phaseALoop_find_pres w rest _ p.piece hrest]
      have hq : (phaseAPass w p c.m_blocks).piece.piece = p.piece :=
        phaseAPass_piece_key w p c.m_blocks
      by_cases hphr : (phaseAPass w p c.m_blocks).piece.piece_hash_returned = true
      · rw [if_pos hphr]
        constructor
        · intro _
          rw [← phaseAPass_piece_eq w p c.m_blocks]
          exact hphr
        · intro _
          exact findPiece_erase_self_nodup hndc
      · rw [if_neg hphr]
        constructor
        · intro hnone
          rw [findPiece_replace_self hfind hq] at hnone
          cases hnone
        · intro habs
          rw [← phaseAPass_piece_eq w p c.m_blocks] at habs
          exact absurd habs hphr
    · have hqne : q.piece ≠ p.piece := by
        intro he
        exact hnq (he ▸ List.mem_map_of_mem _ hmem')
      split
      · exact ih c p hndc hndl' hmem' hfl hfind
      · have hqk : (phaseAPass w q c.m_blocks).piece.piece = q.piece :=
          phaseAPass_piece_key w q c.m_blocks
        have hnoshort : ¬((phaseAPass w q c.m_blocks).ev.count
            < (phaseAPass w q c.m_blocks).ev.requested) := by
          show ¬((w q.blocks (q.hasher_cursor : Int)).2 < (q.blocks.length : Int))
          rw [hw q.blocks (q.hasher_cursor : Int)]
          exact lt_irrefl _
        rw [if_neg hnoshort]
        have hfind' : findPiece
            (if (phaseAPass w q c.m_blocks).piece.piece_hash_returned = true
              then erasePiece c.m_pieces q.piece
              else replacePiece c.m_pieces q.piece (phaseAPass w q c.m_blocks).piece) p.piece
            = some p := by
          split
          · rw [findPiece_erase_of_ne hqne]
            exact hfind
          · rw [findPiece_replace_of_ne hqk hqne]
            exact hfind
        have hndc' : ((if (phaseAPass w q c.m_blocks).piece.piece_hash_returned = true
            then erasePiece c.m_pieces q.piece
            else replacePiece c.m_pieces q.piece (phaseAPass w q c.m_blocks).piece).map
              (fun x => x.piece)).Nodup := by
          split
          · exact nodup_keys_erase hndc
          · exact nodup_keys_replace hqk hndc
        exact ih _ p hndc' hndl' hmem' hfl hfind'

theorem phaseBLoop_find_none_iff (w : Writer) (t : Int) :
    ∀ (l : List CachedPieceEntry) (c : DiskCache) (loc : PieceLocation),
      (findPiece (phaseBLoop w t l c).cache.m_pieces loc = none ↔
        findPiece c.m_pieces loc = none) := by
  intro l
  induction l with
  | nil => intro c loc; exact Iff.rfl
  | cons p rest ih =>
    intro c loc
    rw [phaseBLoop]
    dsimp only
    split
    · exact Iff.rfl
    · split
      · exact ih c loc
      · split
        · exact Iff.rfl
        · split
          · exact findPiece_replace_none_iff (phaseBPass_piece_key w p c.m_blocks)
          · exact (ih _ loc).trans
              (findPiece_replace_none_iff (phaseBPass_piece_key w p c.m_blocks))

theorem phaseCLoop_find_none_iff (w : Writer) (t : Int) :
    ∀ (l : List CachedPieceEntry) (c : DiskCache) (loc : PieceLocation),
      (findPiece (phaseCLoop w t l c).cache.m_pieces loc = none ↔
        findPiece c.m_pieces loc = none) := by
  intro l
  induction l with
  | nil => intro c loc; exact Iff.rfl
  | cons p rest ih =>
    intro c loc
    rw [phaseCLoop]
    dsimp only
    split
    · exact Iff.rfl
    · split
      · exact ih c loc
      · split
        · exact ih c loc
        · split
          · exact findPiece_replace_none_iff (phaseCPass_piece_key w .phaseC p c.m_blocks)
          · exact (ih _ loc).trans
              (findPiece_replace_none_iff (phaseCPass_piece_key w .phaseC p c.m_blocks))

/-- C9: Phase A of `flush_to_disk` never consults `target_blocks` — its
writer invocations are identical for every target — and any writer
invocation (in any phase) returning fewer blocks than requested is the last
one of the whole call; moreover, with a writer whose count always equals
the span length (so no pass falls short), every piece that is
`ready_to_flush` and not `flushing` at call time is offered to the writer
in Phase A regardless of the target, and after its Phase A pass the piece
is gone from the container exactly when `piece_hash_returned` holds on the
post-pass piece. -/
theorem C9_flush_phaseA_spec (w : Writer) (c : DiskCache) (t : Int)
    (hkeys : uniqueKeys c) :
    (∀ t' : Int, eventsOfPhase .phaseA (c.flush_to_disk w t').evs =
      eventsOfPhase .phaseA (c.flush_to_disk w t).evs) ∧
    shortOnlyLast (c.flush_to_disk w t).evs ∧
    (FullCountWriter w → ∀ p ∈ c.m_pieces, p.ready_to_flush = true → p.flushing = false →
      (∃ ev ∈ eventsOfPhase .phaseA (c.flush_to_disk w t).evs, ev.loc = p.piece) ∧
      (findPiece (c.flush_to_disk w t).cache.m_pieces p.piece = none ↔
        (phaseAPassPiece w p).piece_hash_returned = true)) := by
  refine ⟨?_, flushToDisk_shortOnlyLast c w t, ?_⟩
  · intro t'
    rw [flushToDisk_eventsA, flushToDisk_eventsA]
  · intro hw p hp hready hfl
    have hpfilter : p ∈ c.m_pieces.filter (fun x => x.ready_to_flush) :=
      List.mem_filter.mpr ⟨hp, hready⟩
    constructor
    · rw [flushToDisk_eventsA]
      rcases phaseALoop_visits w hw _ c p hpfilter hfl with ⟨ev, hev, hph, hloc⟩
      exact ⟨ev, hev, hloc⟩
    · have hndl : ((c.m_pieces.filter (fun x => x.ready_to_flush)).map
          (fun x => x.piece)).Nodup :=
        hkeys.sublist ((List.filter_sublist _).map _)
      have hfind : findPiece c.m_pieces p.piece = some p := findPiece_mem_self hkeys hp
      have hAiff := phaseALoop_find_iff w hw _ c p hkeys hndl hpfilter hfl hfind
      rw [DiskCache.flush_to_disk]
      dsimp only
      split
      · exact hAiff
      · split
        · exact (phaseBLoop_find_none_iff w t _ _ p.piece).trans hAiff
        · exact ((phaseCLoop_find_none_iff w t _ _ p.piece).trans
            (phaseBLoop_find_none_iff w t _ _ p.piece)).trans hAiff

/-- C9 witness: on the reachable one-ready-piece state `cRtf1`, with the
full-count writer, Phase A offers the piece to the writer and no
non-final invocation is short. -/
theorem C9_flush_phaseA_spec_witness :
    (∃ ev ∈ eventsOfPhase .phaseA (cRtf1.flush_to_disk lengthWriter 0).evs,
      ev.loc = loc00) ∧
    shortOnlyLast (cRtf1.flush_to_disk lengthWriter 0).evs := by
  have h := C9_flush_phaseA_spec lengthWriter cRtf1 0
    (by show (cRtf1.m_pieces.map (fun p => p.piece)).Nodup; decide)
  have hw : FullCountWriter lengthWriter := fun s i => rfl
  have hmem : pRtf1 ∈ cRtf1.m_pieces := by decide
  have h3 := h.2.2 hw pRtf1 hmem (by decide) (by decide)
  refine ⟨?_, h.2.1⟩
  rcases h3.1 with ⟨ev, hev, hloc⟩
  refine ⟨ev, hev, ?_⟩
  rw [hloc]
  decide

end DiskCacheModel
